import Mathlib

/-!
Verification of the `sce` slicer engine (`src/slicer/src/slicer.rs`,
`src/slicer/src/traverse.rs`) against its natural-language specification.

The development shallowly embeds the engine:

* Source text is a `List Char`; the engine only ever slices it at byte
  offsets obtained from the parse tree, so byte offsets are modelled as
  character offsets (exact for the ASCII sources the tests use).
* `tree_sitter::Node` is modelled by the inductive `Node` carrying the
  data the engine reads: `kind`, named-flag, the field name by which the
  node is attached to its parent (`child_by_field_name`), the byte range,
  the point range and the ordered children.  The parse tree itself is
  external to the engine (the parser is declared out of scope by the
  spec), so trees are inputs of the model.
* `tree_sitter` node equality is by identity within a tree; the model
  uses structural equality, which coincides with identity on well-formed
  trees (disjoint sibling spans make distinct positions structurally
  distinct); the well-formedness predicate `wfNode` below captures the
  span discipline the parser guarantees.
* `HashSet<NameRef>` keyed by name components becomes
  `Finset (List String)`; `HashMap` insertion-order-relevant maps become
  association lists with most-recent-first lookup.
* The `RefCell`-based reference marking of `flatten_unreferenced` is
  modelled by explicit state passing (`visitRefs`), visiting children in
  order and firing the ascent "bubble-up" once all children of a node
  have been visited, exactly as `traverse_with_depth` does.
* The `loop`s of `propagate_targets` and `coalesce_ranges` are modelled
  with explicitly sufficient fuel so that the definitions compute by
  evaluation; the proved theorems include the facts (monotone growth,
  bound by the names occurring in scope) that make the fuel sufficient,
  i.e. that make the Rust loops terminate.
-/

/-- `tree_sitter::Point`: 0-indexed row and column. -/
structure Point where
  row : Nat
  col : Nat
deriving DecidableEq

/-- Lexicographic strict order on points, as used by
`TreeCursor::goto_first_child_for_point` (a child is entered iff the
sought point is strictly before the child's end point). -/
def ptLtB (a b : Point) : Bool :=
  decide (a.row < b.row ∨ (a.row = b.row ∧ a.col < b.col))

/-- Lexicographic order on points (non-strict). -/
def ptLeB (a b : Point) : Bool :=
  decide (a.row < b.row ∨ (a.row = b.row ∧ a.col ≤ b.col))

/-- `tree_sitter::Range` as produced by `coalesce_ranges`. -/
structure TSRange where
  start_byte : Nat
  start_point : Point
  end_byte : Nat
  end_point : Point
deriving DecidableEq

/-- A concrete syntax tree node: kind string, tree-sitter named flag,
field name under which it sits in its parent, byte span, point span,
ordered children. -/
inductive Node where
  | mk (kind : String) (isNamed : Bool) (fieldName : Option String)
       (startByte endByte : Nat) (startPoint endPoint : Point)
       (children : List Node) : Node

mutual
def nodeDecEq : (a b : Node) → Decidable (a = b)
  | .mk k1 d1 f1 sb1 eb1 sp1 ep1 cs1, .mk k2 d2 f2 sb2 eb2 sp2 ep2 cs2 =>
    if h : k1 = k2 ∧ d1 = d2 ∧ f1 = f2 ∧ sb1 = sb2 ∧ eb1 = eb2 ∧ sp1 = sp2 ∧ ep1 = ep2 then
      match nodeListDecEq cs1 cs2 with
      | isTrue hc => isTrue (by
          obtain ⟨h1, h2, h3, h4, h5, h6, h7⟩ := h
          subst h1; subst h2; subst h3; subst h4; subst h5; subst h6; subst h7
          subst hc; rfl)
      | isFalse hc => isFalse (by intro he; cases he; exact hc rfl)
    else isFalse (by intro he; cases he; exact h ⟨rfl, rfl, rfl, rfl, rfl, rfl, rfl⟩)
def nodeListDecEq : (as bs : List Node) → Decidable (as = bs)
  | [], [] => isTrue rfl
  | [], _ :: _ => isFalse (by intro he; cases he)
  | _ :: _, [] => isFalse (by intro he; cases he)
  | a :: as, b :: bs =>
    match nodeDecEq a b, nodeListDecEq as bs with
    | isTrue h1, isTrue h2 => isTrue (by rw [h1, h2])
    | isFalse h1, _ => isFalse (by intro he; injection he with hh ht; exact h1 hh)
    | _, isFalse h2 => isFalse (by intro he; injection he with hh ht; exact h2 ht)
end

instance : DecidableEq Node := nodeDecEq

instance : Inhabited Node := ⟨.mk "" false none 0 0 ⟨0, 0⟩ ⟨0, 0⟩ []⟩

def Node.kind : Node → String
  | .mk k _ _ _ _ _ _ _ => k

def Node.isNamed : Node → Bool
  | .mk _ d _ _ _ _ _ _ => d

def Node.fieldName : Node → Option String
  | .mk _ _ f _ _ _ _ _ => f

def Node.startByte : Node → Nat
  | .mk _ _ _ sb _ _ _ _ => sb

def Node.endByte : Node → Nat
  | .mk _ _ _ _ eb _ _ _ => eb

def Node.startPoint : Node → Point
  | .mk _ _ _ _ _ sp _ _ => sp

def Node.endPoint : Node → Point
  | .mk _ _ _ _ _ _ ep _ => ep

def Node.children : Node → List Node
  | .mk _ _ _ _ _ _ _ cs => cs

/-- `Node::child_by_field_name`: the first child carrying the field. -/
def Node.childByFieldName (n : Node) (f : String) : Option Node :=
  n.children.find? (fun c => c.fieldName == some f)

/- `depth_first` (traverse.rs): pre-order listing of a subtree, root
included, every node exactly once — the pull-iterator flavour of the
walker. -/
mutual
def preorder : Node → List Node
  | .mk k d f sb eb sp ep cs => .mk k d f sb eb sp ep cs :: preorderList cs
def preorderList : List Node → List Node
  | [] => []
  | c :: cs => preorder c ++ preorderList cs
end

/- Custom induction principle for the nested `Node` inductive. -/
mutual
def nodeInd (P : Node → Prop)
    (h : ∀ k d f sb eb sp ep cs, (∀ c ∈ cs, P c) → P (Node.mk k d f sb eb sp ep cs)) :
    (n : Node) → P n
  | .mk k d f sb eb sp ep cs => h k d f sb eb sp ep cs (nodeIndList P h cs)
def nodeIndList (P : Node → Prop)
    (h : ∀ k d f sb eb sp ep cs, (∀ c ∈ cs, P c) → P (Node.mk k d f sb eb sp ep cs)) :
    (l : List Node) → ∀ c ∈ l, P c
  | c :: cs => fun x hx =>
      Or.elim (List.mem_cons.mp hx) (fun he => he ▸ nodeInd P h c) (nodeIndList P h cs x)
  | [] => fun x hx => absurd hx (List.not_mem_nil x)
end

/-- Byte slicing of the source: `&src[a..b]` as a string. -/
def sliceTxt (src : List Char) (a b : Nat) : String :=
  ⟨(src.drop a).take (b - a)⟩

/-- Byte slicing of the source, as a character list (used where the Rust
appends `&str` slices to an output `String`). -/
def sliceBytes (src : List Char) (a b : Nat) : List Char :=
  (src.drop a).take (b - a)

/-- `SlicerConfig` (slicer_config.rs): the language-specific data
driving the engine.  The tree-sitter `language` handle and the three
compiled tree queries are external (parser machinery); query results are
passed to `inline` as inputs. -/
structure SlicerConfig where
  subtypes : String → List String
  identifier_types : List String
  name_types : List String
  constant_types : List String
  propagating_types : List (String × String × String)
  statement_types : List String
  slice_scope_types : List String
  var_definition_scope_types : List String
  function_call_types : List String
  temp_var_format : List Char

/-- `Slicer::name_components`: the source text of every descendant
(of the full `depth_first` walk) whose kind is an identifier type, in
pre-order.  Note the Rust always slices `self.src`, also for nodes of
the callee tree during `inline`. -/
def nameComponents (cfg : SlicerConfig) (src : List Char) (n : Node) : List String :=
  ((preorder n).filter (fun d => cfg.identifier_types.contains d.kind)).map
    (fun d => sliceTxt src d.startByte d.endByte)

/-- `NameRef::affects`: compare the two component lists up to the length
of the shorter; true iff they agree on that common part. -/
def affects (a b : List String) : Bool :=
  let len := min a.length b.length
  ((a.take len).zip (b.take len)).all (fun p => p.1 == p.2)

/- `Slicer::referenced_names` (components only): all `name_types` nodes
reachable from `n`, pruning descent below each one. -/
mutual
def referencedNames (cfg : SlicerConfig) (src : List Char) : Node → List (List String)
  | n@(.mk _ _ _ _ _ _ _ cs) =>
    if cfg.name_types.contains n.kind then [nameComponents cfg src n]
    else referencedNamesList cfg src cs
def referencedNamesList (cfg : SlicerConfig) (src : List Char) : List Node → List (List String)
  | [] => []
  | c :: cs => referencedNames cfg src c ++ referencedNamesList cfg src cs
end

/- `Slicer::node_of_kind_for_point`: walk down from `root`, returning
the first node whose kind is in `kinds`; descend into the first child
whose end point lies beyond the target point
(`goto_first_child_for_point`), failing when no child does. -/
mutual
def nodeOfKindForPoint (kinds : List String) (p : Point) : Node → Option Node
  | n@(.mk _ _ _ _ _ _ _ cs) =>
    if kinds.contains n.kind then some n
    else nodeOfKindForPointList kinds p cs
def nodeOfKindForPointList (kinds : List String) (p : Point) : List Node → Option Node
  | [] => none
  | c :: cs =>
    if ptLtB p c.endPoint then nodeOfKindForPoint kinds p c
    else nodeOfKindForPointList kinds p cs
end

/-- `NameRef`: originating node plus its name components (equality and
hashing in the Rust use the components only). -/
structure NameRef where
  node : Node
  components : List String
deriving DecidableEq

/-- `Slicer::name_at_point`. -/
def nameAtPoint (cfg : SlicerConfig) (src : List Char) (root : Node) (p : Point) :
    Option NameRef :=
  (nodeOfKindForPoint cfg.name_types p root).map
    (fun n => ⟨n, nameComponents cfg src n⟩)

/-- `SliceDirection`. -/
inductive SliceDirection where
  | Backward
  | Forward
deriving DecidableEq

/-- `SliceError` (the tree-sitter version error concerns attaching the
external parser and is out of scope). -/
inductive SliceError where
  | NoNameAtPointError (p : Point)
  | NoCallAtPointError (p : Point)
deriving DecidableEq

/-- One step of the `propagate_targets` pass at one descendant: if the
node's kind is a `propagating_types` key and both named fields are
present, grow the target set according to the direction. -/
def passNode (cfg : SlicerConfig) (src : List Char) (dir : SliceDirection)
    (tns : Finset (List String)) (d : Node) : Finset (List String) :=
  match cfg.propagating_types.find? (fun pt => pt.1 == d.kind) with
  | none => tns
  | some (_, defsField, refsField) =>
    match d.childByFieldName defsField, d.childByFieldName refsField with
    | some defsNode, some refsNode =>
      match dir with
      | .Backward =>
        if ∃ t ∈ tns, ∃ x ∈ referencedNames cfg src defsNode, affects t x
        then tns ∪ (referencedNames cfg src refsNode).toFinset else tns
      | .Forward =>
        if ∃ t ∈ tns, ∃ x ∈ referencedNames cfg src refsNode, affects t x
        then tns ∪ (referencedNames cfg src defsNode).toFinset else tns
    | _, _ => tns

/-- One full pass of the `propagate_targets` loop: visit every
descendant of the outer scope in `depth_first` order, threading the
(growing) target set. -/
def pass (cfg : SlicerConfig) (src : List Char) (scope : Node) (dir : SliceDirection)
    (tns : Finset (List String)) : Finset (List String) :=
  (preorder scope).foldl (passNode cfg src dir) tns

/-- All names a pass can ever add: the referenced names of both field
children of every propagating descendant of the scope. -/
def nodeNames (cfg : SlicerConfig) (src : List Char) (d : Node) : Finset (List String) :=
  match cfg.propagating_types.find? (fun pt => pt.1 == d.kind) with
  | none => ∅
  | some (_, defsField, refsField) =>
    match d.childByFieldName defsField, d.childByFieldName refsField with
    | some defsNode, some refsNode =>
      (referencedNames cfg src defsNode).toFinset ∪ (referencedNames cfg src refsNode).toFinset
    | _, _ => ∅

def potentialNames (cfg : SlicerConfig) (src : List Char) (scope : Node) :
    Finset (List String) :=
  (preorder scope).foldl (fun acc d => acc ∪ nodeNames cfg src d) ∅

/-- The `loop` of `propagate_targets`, with fuel: run passes until one
adds no new name (the Rust compares the set's size before and after the
pass).  `propagate_targets` supplies fuel that provably suffices. -/
def propagateFuel (cfg : SlicerConfig) (src : List Char) (scope : Node)
    (dir : SliceDirection) : Nat → Finset (List String) → Finset (List String)
  | 0, tns => tns
  | fuel + 1, tns =>
    let t := pass cfg src scope dir tns
    if t.card = tns.card then t else propagateFuel cfg src scope dir fuel t

/-- `Slicer::propagate_targets`. -/
def propagate_targets (cfg : SlicerConfig) (src : List Char) (scope : Node)
    (init : Finset (List String)) (dir : SliceDirection) : Finset (List String) :=
  propagateFuel cfg src scope dir ((potentialNames cfg src scope ∪ init).card + 1) init

/- Reference marking of `Slicer::flatten_unreferenced`, first walk: a
`traverse_with_depth` that inserts every `name_types` node affected by a
target (pruning descent below it), and on each ascent out of a node
inserts the node if one of its children was inserted.  The `RefCell`
set is modelled by explicit state passing in visit order. -/
mutual
def visitRefs (cfg : SlicerConfig) (src : List Char) (tns : Finset (List String)) :
    Node → Finset Node → Finset Node
  | n@(.mk _ _ _ _ _ _ _ cs), refs =>
    if cfg.name_types.contains n.kind then
      if ∃ t ∈ tns, affects t (nameComponents cfg src n) then insert n refs else refs
    else
      let refs2 := visitRefsList cfg src tns cs refs
      if cs.any (fun c => decide (c ∈ refs2)) then insert n refs2 else refs2
def visitRefsList (cfg : SlicerConfig) (src : List Char) (tns : Finset (List String)) :
    List Node → Finset Node → Finset Node
  | [], refs => refs
  | c :: cs, refs => visitRefsList cfg src tns cs (visitRefs cfg src tns c refs)
end

/-- `Slicer::contains_subtype` for the statement kinds: some entry of
`statement_types`, expanded through the subtype table, matches the
node's kind. -/
def statementKind (cfg : SlicerConfig) (n : Node) : Bool :=
  cfg.statement_types.any (fun t => (cfg.subtypes t).contains n.kind)

/-- Second walk of `Slicer::flatten_unreferenced`: in pre-order, emit
every statement-kind node that is not in the references set and none of
whose ancestors was already emitted.  (The Rust checks the proper
ancestors of the occurrence; on well-formed trees that is exactly
membership of the candidate in a previously emitted node's subtree.) -/
def flatten_unreferenced (cfg : SlicerConfig) (src : List Char)
    (target_func : Node) (tns : Finset (List String)) : List Node :=
  let refs := visitRefs cfg src tns target_func ∅
  (preorder target_func).foldl
    (fun acc stmt =>
      if statementKind cfg stmt ∧ stmt ∉ refs ∧ ¬ ∃ d ∈ acc, stmt ∈ preorderList d.children
      then acc ++ [stmt] else acc)
    []

/- The sibling-climbing of `coalesce_ranges`: `end_node.next_sibling()`,
or, climbing parents while there is none, the next sibling of the
nearest ancestor that has one.  On a tree this is the list of nodes
strictly after `t`'s subtree in pre-order (the climb result being its
head); `afterSubtree` computes that suffix. -/
mutual
def afterSubtree (t : Node) : Node → List Node
  | n@(.mk _ _ _ _ _ _ _ cs) => if n = t then [] else afterSubtreeList t cs
def afterSubtreeList (t : Node) : List Node → List Node
  | [] => []
  | c :: cs => if t ∈ preorder c then afterSubtree t c ++ preorderList cs
               else afterSubtreeList t cs
end

/-- Inner `while` of `Slicer::coalesce_ranges`: starting from the run's
current end node, keep absorbing list entries as long as the next node
in the tree (next sibling, or next sibling of the nearest ancestor) is
exactly the next entry of the list. -/
def coalesceRun (root : Node) : Node → List Node → Node × List Node
  | e, [] => (e, [])
  | e, nxt :: rest =>
    match (afterSubtree e root).head? with
    | some b => if b = nxt then coalesceRun root nxt rest else (e, nxt :: rest)
    | none => (e, nxt :: rest)

/-- Outer loop of `Slicer::coalesce_ranges`, with fuel (one unit per
emitted range; the list length suffices since every range consumes at
least one node). -/
def coalesceRangesFuel (root : Node) : Nat → List Node → List TSRange
  | 0, _ => []
  | _, [] => []
  | fuel + 1, n :: rest =>
    let er := coalesceRun root n rest
    ⟨n.startByte, n.startPoint, er.1.endByte, er.1.endPoint⟩ ::
      coalesceRangesFuel root fuel er.2
def coalesce_ranges (root : Node) (nodes : List Node) : List TSRange :=
  coalesceRangesFuel root nodes.length nodes

/- Path from `root` down to the occurrence of `t` (root first). -/
mutual
def pathTo (t : Node) : Node → Option (List Node)
  | n@(.mk _ _ _ _ _ _ _ cs) =>
    if n = t then some [n] else (pathToList t cs).map (fun p => n :: p)
def pathToList (t : Node) : List Node → Option (List Node)
  | [] => none
  | c :: cs =>
    match pathTo t c with
    | some p => some p
    | none => pathToList t cs
end

/-- The walk-up loop of `Slicer::slice`: from the target node, check
its own kind and then each parent in turn until a `slice_scope_types`
kind is found.  The Rust `parent().unwrap()` panics when no enclosing
scope exists; that is the `none` case. -/
def scopeClimb (cfg : SlicerConfig) (root t : Node) : Option Node :=
  (pathTo t root).bind
    (fun path => path.reverse.find? (fun a => cfg.slice_scope_types.contains a.kind))

/-- `Slicer::slice` given the parse tree (the parser is external; note
the code does not inspect the tree for error nodes — the check is left
as a `TODO`).  `none` models the `unwrap` panic when the target name has
no enclosing scope node; errors surface as in the Rust. -/
def Slicer.slice (cfg : SlicerConfig) (src : List Char) (root : Node)
    (target_point : Point) (dir : SliceDirection) :
    Option (Except SliceError (List TSRange)) :=
  match nameAtPoint cfg src root target_point with
  | none => some (.error (.NoNameAtPointError target_point))
  | some target_name =>
    match scopeClimb cfg root target_name.node with
    | none => none
    | some target_func =>
      let tns := propagate_targets cfg src target_func {target_name.components} dir
      let delete_nodes := flatten_unreferenced cfg src target_func tns
      some (.ok (coalesce_ranges root delete_nodes))

/-- A parse tree contains a parser error iff some node has the
tree-sitter `ERROR` kind. -/
def hasErrorNode (root : Node) : Bool :=
  (preorder root).any (fun n => n.kind == "ERROR")

/-- `trim().is_empty()`: the text is all whitespace. -/
def trimEmpty (l : List Char) : Bool := l.all (fun c => c.isWhitespace)

/-- One iteration of the `for range in ranges` loop of `delete_ranges`:
state is (next line index to keep, kept lines, adjusted target point). -/
def deleteRangesStep (src_lines : List (List Char))
    (st : Nat × List (List Char) × Point) (range : TSRange) :
    Nat × List (List Char) × Point :=
  let i := st.1
  let new := st.2.1
  let tp := st.2.2
  let new := if i < range.start_point.row
             then new ++ (src_lines.drop i).take (range.start_point.row - i) else new
  let pre := (src_lines.getD range.start_point.row []).take range.start_point.col
  let new := if ¬ trimEmpty pre then new ++ [pre] else new
  let suf := (src_lines.getD range.end_point.row []).drop range.end_point.col
  let new := if ¬ trimEmpty suf then new ++ [suf] else new
  let tp := if range.end_point.row < tp.row then
              let dl := range.end_point.row - range.start_point.row
              let dl := if trimEmpty pre ∨ trimEmpty suf then dl + 1 else dl
              ⟨tp.row - dl, tp.col⟩
            else tp
  (range.end_point.row + 1, new, tp)

/-- `delete_ranges` (slicer.rs, free function): apply a sorted list of
removal ranges to the source line-wise, returning the reduced text and
the adjusted target point. -/
def delete_ranges (src : List Char) (ranges : List TSRange) (target_point : Point) :
    List Char × Point :=
  let src_lines := src.splitOn '\n'
  let st := ranges.foldl (deleteRangesStep src_lines) (0, [], target_point)
  let new := st.2.1 ++ src_lines.drop st.1
  (List.intercalate ['\n'] new, st.2.2)

/-- `RewriteValue`. -/
inductive RewriteValue where
  | none
  | str (s : List Char)
  | node (n : Node)
deriving DecidableEq

/-- `InlineTempVar`. -/
structure InlineTempVar where
  name : List Char
  value : List Char
  typ : List Char
deriving DecidableEq

/-- Does `p` occur at the start of `s`? (`str::starts_with`-style check
backing `strip_prefix`.) -/
def leadsWith : List Char → List Char → Bool
  | [], _ => true
  | _ :: _, [] => false
  | a :: as, b :: bs => a == b && leadsWith as bs

/-- `line.strip_prefix(ws).unwrap_or(line)`. -/
def stripLead (p s : List Char) : List Char :=
  if leadsWith p s then s.drop p.length else s

/-- `str::replace`: replace every non-overlapping occurrence of `pat`
left to right (with structural fuel — the input length suffices since
each step consumes at least one character). -/
def replaceAllFuel (pat repl : List Char) : Nat → List Char → List Char
  | 0, s => s
  | _, [] => []
  | fuel + 1, c :: rest =>
    if pat ≠ [] ∧ leadsWith pat (c :: rest) then
      repl ++ replaceAllFuel pat repl fuel ((c :: rest).drop pat.length)
    else c :: replaceAllFuel pat repl fuel rest

def replaceAll (pat repl : List Char) (s : List Char) : List Char :=
  replaceAllFuel pat repl s.length s

/-- `InlineTempVar::format`: substitute `{name}`, `{value}`, `{type}`
in the configured format string. -/
def InlineTempVar.format (t : InlineTempVar) (fmt : List Char) : List Char :=
  replaceAll "{type}".data t.typ
    (replaceAll "{value}".data t.value (replaceAll "{name}".data t.name fmt))

/-- The rename map: keys are `NameRef` components, values replacement
text; `HashMap::insert` overwrites, so entries are prepended and lookup
takes the most recent binding. -/
def RenameMap := List (List String × List Char)

def renameLookup (m : List (List String × List Char)) (k : List String) :
    Option (List Char) :=
  (m.find? (fun e => e.1 == k)).map (fun e => e.2)

/-- The argument/parameter pairing loop of `Slicer::inline`: positionally
paired `(argument, (param_name_node, param_type_node))` triples.  A
constant- or name-kind argument maps the parameter name directly to the
argument text; anything else synthesises a temporary `inline_<param>`.
Component extraction goes through `name_at_point`, which slices
`self.src` (the caller source). -/
def buildRenameMap (cfg : SlicerConfig) (src targetContent : List Char) (fdRoot : Node) :
    List (Node × Node × Node) → List InlineTempVar × List (List String × List Char) →
    Except SliceError (List InlineTempVar × List (List String × List Char))
  | [], st => .ok st
  | (arg, pn, pt) :: rest, (temps, rmap) =>
    match nameAtPoint cfg src fdRoot pn.startPoint with
    | none => .error (.NoNameAtPointError pn.startPoint)
    | some param_name =>
      if cfg.constant_types.contains arg.kind ∨ cfg.name_types.contains arg.kind then
        buildRenameMap cfg src targetContent fdRoot rest
          (temps, (param_name.components, sliceBytes src arg.startByte arg.endByte) :: rmap)
      else
        let inline_name := "inline_".data ++
          sliceBytes targetContent param_name.node.startByte param_name.node.endByte
        buildRenameMap cfg src targetContent fdRoot rest
          (temps ++ [⟨inline_name, sliceBytes src arg.startByte arg.endByte,
                      sliceBytes targetContent pt.startByte pt.endByte⟩],
           (param_name.components, inline_name) :: rmap)

/-- The `match &returns[..]` of `Slicer::inline`: with exactly one
return, mark the return statement for deletion (rewrite to nothing) and
use its return value as the callsite rewrite; otherwise the callsite
rewrite is empty. -/
def computeCallsiteRewrite : List (Node × Node) →
    List (Node × RewriteValue) × RewriteValue
  | [(return_stmt, retval)] => ([(return_stmt, .none)], .node retval)
  | _ => ([], .none)

def rewriteMapLookup (m : List (Node × RewriteValue)) (n : Node) : Option RewriteValue :=
  (m.find? (fun e => decide (e.1 = n))).map (fun e => e.2)

/- `Slicer::rewrite_names` body walk: copy source bytes, substituting
every `name_types` node found in the rename map (pruning descent below
name nodes); state is (output, previous byte).  Note the components of
a visited name are extracted from the caller source `src`, exactly as
`self.name_components` does. -/
mutual
def rewriteNamesVisit (cfg : SlicerConfig) (src : List Char)
    (rename_map : List (List String × List Char)) (content : List Char) :
    Node → List Char × Nat → List Char × Nat
  | n@(.mk _ _ _ _ _ _ _ cs), st =>
    if cfg.name_types.contains n.kind then
      match renameLookup rename_map (nameComponents cfg src n) with
      | some new_name => (st.1 ++ sliceBytes content st.2 n.startByte ++ new_name, n.endByte)
      | none => st
    else rewriteNamesVisitList cfg src rename_map content cs st
def rewriteNamesVisitList (cfg : SlicerConfig) (src : List Char)
    (rename_map : List (List String × List Char)) (content : List Char) :
    List Node → List Char × Nat → List Char × Nat
  | [], st => st
  | c :: cs, st =>
    rewriteNamesVisitList cfg src rename_map content cs
      (rewriteNamesVisit cfg src rename_map content c st)
end

/-- `Slicer::rewrite_names`. -/
def rewrite_names (cfg : SlicerConfig) (src : List Char) (node : Node)
    (rename_map : List (List String × List Char)) (content : List Char) : List Char :=
  let st := rewriteNamesVisit cfg src rename_map content node ([], node.startByte)
  st.1 ++ sliceBytes content st.2 node.endByte

/- The body-rewriting walk of `Slicer::inline`: like `rewrite_names`,
but first consulting the rewrite map (a node found there is replaced by
its rewrite value with descent pruned). -/
mutual
def emitVisit (cfg : SlicerConfig) (src : List Char)
    (rewrite_map : List (Node × RewriteValue))
    (rename_map : List (List String × List Char)) (content : List Char) :
    Node → List Char × Nat → List Char × Nat
  | n@(.mk _ _ _ _ _ _ _ cs), st =>
    match rewriteMapLookup rewrite_map n with
    | some rw =>
      (st.1 ++ sliceBytes content st.2 n.startByte ++
        (match rw with
         | .str s => s
         | .node m => rewrite_names cfg src m rename_map content
         | .none => []), n.endByte)
    | Option.none =>
      if cfg.name_types.contains n.kind then
        match renameLookup rename_map (nameComponents cfg src n) with
        | some new_name => (st.1 ++ sliceBytes content st.2 n.startByte ++ new_name, n.endByte)
        | Option.none => st
      else emitVisitList cfg src rewrite_map rename_map content cs st
def emitVisitList (cfg : SlicerConfig) (src : List Char)
    (rewrite_map : List (Node × RewriteValue))
    (rename_map : List (List String × List Char)) (content : List Char) :
    List Node → List Char × Nat → List Char × Nat
  | [], st => st
  | c :: cs, st =>
    emitVisitList cfg src rewrite_map rename_map content cs
      (emitVisit cfg src rewrite_map rename_map content c st)
end

/-- The query results `Slicer::inline` consumes: `@value` captures of
the call-arguments query on the callsite, the `(@param_name,
@param_type)` pairs and the `@function_type` / `@function_body` captures
of the function query on the callee definition, and the
`(@return_statement, @return_value)` pairs of the returns query.
Queries themselves are external tree-sitter machinery. -/
structure InlineInputs where
  call_args : List Node
  function_params : List (Node × Node)
  function_type : Node
  function_body : Node
  returns : List (Node × Node)

/-- The `start_byte`/`end_byte` scan over the function body's children:
`start_byte` is the first named child's start (while it is still `0`),
`end_byte` the last named child's end. -/
def bodySpan (body : Node) : Nat × Nat :=
  body.children.foldl
    (fun st c => if c.isNamed then (if st.1 = 0 then c.startByte else st.1, c.endByte) else st)
    (0, 0)

/-- The whitespace-prefix of the callsite's line, used to re-indent
temporaries and the inlined body. -/
def callsiteWs (src : List Char) (callsite : Node) : List Char :=
  ((src.splitOn '\n').getD callsite.startPoint.row []).takeWhile (fun c => c.isWhitespace)

/-- The temporaries, rendered through the configured format string, one
per line, each indented like the callsite. -/
def tempsText (cfg : SlicerConfig) (src : List Char) (callsite : Node)
    (temps : List InlineTempVar) : List Char :=
  temps.foldl
    (fun acc t => acc ++ callsiteWs src callsite ++ t.format cfg.temp_var_format ++ ['\n']) []

/-- The rewritten, re-indented callee body: emit the body between its
first and last named child through the rewrite and rename maps, then
strip the definition's trailing whitespace from each line and prepend
the callsite's indentation. -/
def bodyText (cfg : SlicerConfig) (src targetContent : List Char) (callsite : Node)
    (body : Node) (rewrite_map : List (Node × RewriteValue))
    (rename_map : List (List String × List Char)) : List Char :=
  let se := bodySpan body
  let definition_whitespace :=
    ((targetContent.take se.2).reverse).takeWhile (fun c => c.isWhitespace)
  let st := emitVisit cfg src rewrite_map rename_map targetContent body ([], se.1)
  let inline_src := st.1 ++ sliceBytes targetContent st.2 se.2
  (inline_src.splitOn '\n').foldl
    (fun acc line =>
      acc ++ callsiteWs src callsite ++ stripLead definition_whitespace line ++ ['\n']) []

/-- Everything `Slicer::inline` emits before the callsite rewrite: the
caller lines above the callsite, the temporaries, the rewritten body
(with the final newline of the assembly dropped), and the callsite line
up to the call's column. -/
def inlineBodyText (cfg : SlicerConfig) (src targetContent : List Char) (callsite : Node)
    (body : Node) (temps : List InlineTempVar)
    (rename_map : List (List String × List Char))
    (rewrite_map : List (Node × RewriteValue)) : List Char :=
  let src_lines := src.splitOn '\n'
  let pre := List.intercalate ['\n'] (src_lines.take callsite.startPoint.row) ++ ['\n']
  let new_src :=
    (pre ++ tempsText cfg src callsite temps ++
      bodyText cfg src targetContent callsite body rewrite_map rename_map).dropLast
  new_src ++ (src_lines.getD callsite.startPoint.row []).take callsite.startPoint.col

/-- The emission stage of `Slicer::inline`: `none` models the Rust
panics (out-of-bounds line/column indexing and string slicing). -/
def inlineAssemble (cfg : SlicerConfig) (src targetContent : List Char) (callsite : Node)
    (body : Node) (temps : List InlineTempVar)
    (rename_map : List (List String × List Char))
    (rw : List (Node × RewriteValue) × RewriteValue) : Option (List Char) :=
  let src_lines := src.splitOn '\n'
  if callsite.startPoint.row < src_lines.length ∧
     callsite.startPoint.col ≤ (src_lines.getD callsite.startPoint.row []).length ∧
     callsite.endByte ≤ src.length then
    let rewriteTxt := match rw.2 with
      | .str s => s
      | .node n => rewrite_names cfg src n rename_map targetContent
      | .none => []
    some (inlineBodyText cfg src targetContent callsite body temps rename_map rw.1 ++
          rewriteTxt ++ src.drop callsite.endByte)
  else none

/-- `Slicer::inline`, given the two parse trees and the query captures.
Steps, in source order: locate callsite and callee definition, build
rename map and temporaries, compute the callsite rewrite from the
returns, then emit: lines above the callsite, the temporaries (indented
like the callsite), the rewritten body re-indented to the callsite, the
callsite line up to the call, the callsite rewrite, and the caller
source from the call's end byte on. -/
def Slicer.inline (cfg : SlicerConfig) (src targetContent : List Char)
    (rootNode fdRoot : Node) (point target_point : Point) (q : InlineInputs) :
    Option (Except SliceError (List Char)) :=
  match nodeOfKindForPoint cfg.function_call_types point rootNode with
  | none => some (.error (.NoCallAtPointError point))
  | some callsite =>
    match nodeOfKindForPoint cfg.slice_scope_types target_point fdRoot with
    | none => some (.error (.NoNameAtPointError target_point))
    | some _function_definition =>
      match buildRenameMap cfg src targetContent fdRoot
              (q.call_args.zip q.function_params) ([], []) with
      | .error e => some (.error e)
      | .ok (temps, rename_map) =>
        match inlineAssemble cfg src targetContent callsite q.function_body temps
                rename_map (computeCallsiteRewrite q.returns) with
        | some out => some (.ok out)
        | none => none

/-- Sibling spans are ordered: each child ends (in bytes and in points)
no later than its successor starts. -/
def chainOrdered : List Node → Bool
  | [] => true
  | [_] => true
  | a :: b :: rest =>
    (decide (a.endByte ≤ b.startByte) && ptLeB a.endPoint b.startPoint) &&
      chainOrdered (b :: rest)

/- Well-formedness of a parse tree, as guaranteed by the external
parser: every node has a non-empty byte span and point span, a parent
with children starts at its first child and ends at its last (every
token of the text is a leaf), and sibling spans are ordered and
disjoint.  The engine's correctness claims are relative to this span
discipline. -/
mutual
def wfNode : Node → Bool
  | .mk _ _ _ sb eb sp ep cs =>
    (decide (sb < eb) && ptLtB sp ep) &&
    (match cs.head?, cs.getLast? with
     | some h, some l =>
       (h.startByte == sb) && (h.startPoint == sp) && (l.endByte == eb) && (l.endPoint == ep)
     | _, _ => true) &&
    chainOrdered cs && wfNodeList cs
def wfNodeList : List Node → Bool
  | [] => true
  | c :: cs => wfNode c && wfNodeList cs
end

/-- No statement-kind node occurs strictly inside a `name_types` node.
This holds for the shipped grammars/configurations (a C
`field_expression` contains only expressions and identifiers) and is the
structural side condition under which the engine never deletes a region
containing the target. -/
def noStmtInsideName (cfg : SlicerConfig) (root : Node) : Bool :=
  (preorder root).all (fun m =>
    !(cfg.name_types.contains m.kind) ||
    (preorderList m.children).all (fun x => !(statementKind cfg x)))

/-- Modelled from the spec: the `subtypes` table for C is the expansion
of the parser's published node-type descriptor (each supertype maps to
itself plus every declared subtype, other names to singletons); the
vendored `node-types.json` data file is not part of the sources.  Only
the entries the engine looks up (`_statement`, `declaration`) matter;
the `_statement` subtypes listed are those of tree-sitter-c. -/
def cSubtypes (t : String) : List String :=
  if t == "_statement" then
    ["_statement", "break_statement", "case_statement", "compound_statement",
     "continue_statement", "do_statement", "expression_statement", "for_statement",
     "goto_statement", "if_statement", "labeled_statement", "return_statement",
     "switch_statement", "while_statement"]
  else if t == "declaration" then ["declaration"]
  else [t]

/-- The C `SlicerConfig` of `slicer_config.rs` (the only shipped one). -/
def cConfig : SlicerConfig where
  subtypes := cSubtypes
  identifier_types := ["identifier", "field_identifier"]
  name_types := ["identifier", "field_expression"]
  constant_types := ["null", "true", "false", "number_literal", "string_literal",
                     "character_literal"]
  propagating_types := [("assignment_expression", "left", "right"),
                        ("init_declarator", "declarator", "value")]
  statement_types := ["_statement", "declaration"]
  slice_scope_types := ["function_definition"]
  var_definition_scope_types := ["compound_statement"]
  function_call_types := ["call_expression"]
  temp_var_format := "{type} {name} = {value};".data

/-- Named leaf node. -/
def lf (k : String) (sb eb : Nat) (sp ep : Point) : Node := .mk k true none sb eb sp ep []

/-- Anonymous (token) leaf node. -/
def anon (k : String) (sb eb : Nat) (sp ep : Point) : Node := .mk k false none sb eb sp ep []

/-- Attach a field name to a node. -/
def fld (f : String) : Node → Node
  | .mk k d _ sb eb sp ep cs => .mk k d (some f) sb eb sp ep cs

/- Concrete test input (C), the parse tree of:
int f(){
int a=1;
int b=a;
int c=2;
return b;
}
-/
def src1 : List Char := "int f()\x7b\nint a=1;\nint b=a;\nint c=2;\nreturn b;\n\x7d".data

def t1_initA : Node :=
  .mk "init_declarator" true none 13 16 ⟨1, 4⟩ ⟨1, 7⟩
    [fld "declarator" (lf "identifier" 13 14 ⟨1, 4⟩ ⟨1, 5⟩),
     anon "=" 14 15 ⟨1, 5⟩ ⟨1, 6⟩,
     fld "value" (lf "number_literal" 15 16 ⟨1, 6⟩ ⟨1, 7⟩)]

def t1_decl1 : Node :=
  .mk "declaration" true none 9 17 ⟨1, 0⟩ ⟨1, 8⟩
    [lf "primitive_type" 9 12 ⟨1, 0⟩ ⟨1, 3⟩, t1_initA, anon ";" 16 17 ⟨1, 7⟩ ⟨1, 8⟩]

def t1_initB : Node :=
  .mk "init_declarator" true none 22 25 ⟨2, 4⟩ ⟨2, 7⟩
    [fld "declarator" (lf "identifier" 22 23 ⟨2, 4⟩ ⟨2, 5⟩),
     anon "=" 23 24 ⟨2, 5⟩ ⟨2, 6⟩,
     fld "value" (lf "identifier" 24 25 ⟨2, 6⟩ ⟨2, 7⟩)]

def t1_decl2 : Node :=
  .mk "declaration" true none 18 26 ⟨2, 0⟩ ⟨2, 8⟩
    [lf "primitive_type" 18 21 ⟨2, 0⟩ ⟨2, 3⟩, t1_initB, anon ";" 25 26 ⟨2, 7⟩ ⟨2, 8⟩]

def t1_initC : Node :=
  .mk "init_declarator" true none 31 34 ⟨3, 4⟩ ⟨3, 7⟩
    [fld "declarator" (lf "identifier" 31 32 ⟨3, 4⟩ ⟨3, 5⟩),
     anon "=" 32 33 ⟨3, 5⟩ ⟨3, 6⟩,
     fld "value" (lf "number_literal" 33 34 ⟨3, 6⟩ ⟨3, 7⟩)]

def t1_decl3 : Node :=
  .mk "declaration" true none 27 35 ⟨3, 0⟩ ⟨3, 8⟩
    [lf "primitive_type" 27 30 ⟨3, 0⟩ ⟨3, 3⟩, t1_initC, anon ";" 34 35 ⟨3, 7⟩ ⟨3, 8⟩]

def t1_ret : Node :=
  .mk "return_statement" true none 36 45 ⟨4, 0⟩ ⟨4, 9⟩
    [anon "return" 36 42 ⟨4, 0⟩ ⟨4, 6⟩, lf "identifier" 43 44 ⟨4, 7⟩ ⟨4, 8⟩,
     anon ";" 44 45 ⟨4, 8⟩ ⟨4, 9⟩]

def t1_compound : Node :=
  .mk "compound_statement" true none 7 47 ⟨0, 7⟩ ⟨5, 1⟩
    [anon "\x7b" 7 8 ⟨0, 7⟩ ⟨0, 8⟩, t1_decl1, t1_decl2, t1_decl3, t1_ret,
     anon "\x7d" 46 47 ⟨5, 0⟩ ⟨5, 1⟩]

def t1_fdef : Node :=
  .mk "function_definition" true none 0 47 ⟨0, 0⟩ ⟨5, 1⟩
    [lf "primitive_type" 0 3 ⟨0, 0⟩ ⟨0, 3⟩,
     .mk "function_declarator" true none 4 7 ⟨0, 4⟩ ⟨0, 7⟩
       [lf "identifier" 4 5 ⟨0, 4⟩ ⟨0, 5⟩, lf "parameter_list" 5 7 ⟨0, 5⟩ ⟨0, 7⟩],
     t1_compound]

def tree1 : Node := .mk "translation_unit" true none 0 47 ⟨0, 0⟩ ⟨5, 1⟩ [t1_fdef]

/-- The target point of the slicing scenario: on the `b` of `return b;`. -/
def p1 : Point := ⟨4, 7⟩

/- A variant of `tree1` in which the third declaration was garbled into
a parser `ERROR` node (same span): a tree "containing a parser error". -/
def t1e_compound : Node :=
  .mk "compound_statement" true none 7 47 ⟨0, 7⟩ ⟨5, 1⟩
    [anon "\x7b" 7 8 ⟨0, 7⟩ ⟨0, 8⟩, t1_decl1, t1_decl2,
     .mk "ERROR" true none 27 35 ⟨3, 0⟩ ⟨3, 8⟩ [], t1_ret,
     anon "\x7d" 46 47 ⟨5, 0⟩ ⟨5, 1⟩]

def tree1e : Node :=
  .mk "translation_unit" true none 0 47 ⟨0, 0⟩ ⟨5, 1⟩
    [.mk "function_definition" true none 0 47 ⟨0, 0⟩ ⟨5, 1⟩
      [lf "primitive_type" 0 3 ⟨0, 0⟩ ⟨0, 3⟩,
       .mk "function_declarator" true none 4 7 ⟨0, 4⟩ ⟨0, 7⟩
         [lf "identifier" 4 5 ⟨0, 4⟩ ⟨0, 5⟩, lf "parameter_list" 5 7 ⟨0, 5⟩ ⟨0, 7⟩],
       t1e_compound]]

/- Concrete test input (C) for the inliner, the parse tree of:
int f(int p,int q){
return p+q;
}
int g(){
z=f(w,1+2);
}
-/
def src2 : List Char :=
  "int f(int p,int q)\x7b\nreturn p+q;\n\x7d\nint g()\x7b\nz=f(w,1+2);\n\x7d".data

def t2_idp : Node := lf "identifier" 10 11 ⟨0, 10⟩ ⟨0, 11⟩
def t2_idq : Node := lf "identifier" 16 17 ⟨0, 16⟩ ⟨0, 17⟩
def t2_primp : Node := lf "primitive_type" 6 9 ⟨0, 6⟩ ⟨0, 9⟩
def t2_primq : Node := lf "primitive_type" 12 15 ⟨0, 12⟩ ⟨0, 15⟩

def t2_binexp : Node :=
  .mk "binary_expression" true none 27 30 ⟨1, 7⟩ ⟨1, 10⟩
    [lf "identifier" 27 28 ⟨1, 7⟩ ⟨1, 8⟩, anon "+" 28 29 ⟨1, 8⟩ ⟨1, 9⟩,
     lf "identifier" 29 30 ⟨1, 9⟩ ⟨1, 10⟩]

def t2_ret : Node :=
  .mk "return_statement" true none 20 31 ⟨1, 0⟩ ⟨1, 11⟩
    [anon "return" 20 26 ⟨1, 0⟩ ⟨1, 6⟩, t2_binexp, anon ";" 30 31 ⟨1, 10⟩ ⟨1, 11⟩]

def t2_body : Node :=
  .mk "compound_statement" true none 18 33 ⟨0, 18⟩ ⟨2, 1⟩
    [anon "\x7b" 18 19 ⟨0, 18⟩ ⟨0, 19⟩, t2_ret, anon "\x7d" 32 33 ⟨2, 0⟩ ⟨2, 1⟩]

def t2_fdef : Node :=
  .mk "function_definition" true none 0 33 ⟨0, 0⟩ ⟨2, 1⟩
    [lf "primitive_type" 0 3 ⟨0, 0⟩ ⟨0, 3⟩,
     .mk "function_declarator" true none 4 18 ⟨0, 4⟩ ⟨0, 18⟩
       [lf "identifier" 4 5 ⟨0, 4⟩ ⟨0, 5⟩,
        .mk "parameter_list" true none 5 18 ⟨0, 5⟩ ⟨0, 18⟩
          [anon "(" 5 6 ⟨0, 5⟩ ⟨0, 6⟩,
           .mk "parameter_declaration" true none 6 11 ⟨0, 6⟩ ⟨0, 11⟩ [t2_primp, t2_idp],
           anon "," 11 12 ⟨0, 11⟩ ⟨0, 12⟩,
           .mk "parameter_declaration" true none 12 17 ⟨0, 12⟩ ⟨0, 17⟩ [t2_primq, t2_idq],
           anon ")" 17 18 ⟨0, 17⟩ ⟨0, 18⟩]],
     t2_body]

def t2_idw : Node := lf "identifier" 47 48 ⟨4, 4⟩ ⟨4, 5⟩

def t2_abin : Node :=
  .mk "binary_expression" true none 49 52 ⟨4, 6⟩ ⟨4, 9⟩
    [lf "number_literal" 49 50 ⟨4, 6⟩ ⟨4, 7⟩, anon "+" 50 51 ⟨4, 7⟩ ⟨4, 8⟩,
     lf "number_literal" 51 52 ⟨4, 8⟩ ⟨4, 9⟩]

def t2_call : Node :=
  .mk "call_expression" true (some "right") 45 53 ⟨4, 2⟩ ⟨4, 10⟩
    [lf "identifier" 45 46 ⟨4, 2⟩ ⟨4, 3⟩,
     .mk "argument_list" true none 46 53 ⟨4, 3⟩ ⟨4, 10⟩
       [anon "(" 46 47 ⟨4, 3⟩ ⟨4, 4⟩, t2_idw, anon "," 48 49 ⟨4, 5⟩ ⟨4, 6⟩,
        t2_abin, anon ")" 52 53 ⟨4, 9⟩ ⟨4, 10⟩]]

def t2_fdefg : Node :=
  .mk "function_definition" true none 34 56 ⟨3, 0⟩ ⟨5, 1⟩
    [lf "primitive_type" 34 37 ⟨3, 0⟩ ⟨3, 3⟩,
     .mk "function_declarator" true none 38 41 ⟨3, 4⟩ ⟨3, 7⟩
       [lf "identifier" 38 39 ⟨3, 4⟩ ⟨3, 5⟩, lf "parameter_list" 39 41 ⟨3, 5⟩ ⟨3, 7⟩],
     .mk "compound_statement" true none 41 56 ⟨3, 7⟩ ⟨5, 1⟩
       [anon "\x7b" 41 42 ⟨3, 7⟩ ⟨3, 8⟩,
        .mk "expression_statement" true none 43 54 ⟨4, 0⟩ ⟨4, 11⟩
          [.mk "assignment_expression" true none 43 53 ⟨4, 0⟩ ⟨4, 10⟩
            [fld "left" (lf "identifier" 43 44 ⟨4, 0⟩ ⟨4, 1⟩),
             anon "=" 44 45 ⟨4, 1⟩ ⟨4, 2⟩, t2_call],
           anon ";" 53 54 ⟨4, 10⟩ ⟨4, 11⟩],
        anon "\x7d" 55 56 ⟨5, 0⟩ ⟨5, 1⟩]]

def tree2 : Node := .mk "translation_unit" true none 0 56 ⟨0, 0⟩ ⟨5, 1⟩ [t2_fdef, t2_fdefg]

/-- The inliner's query captures for `tree2`. -/
def q2 : InlineInputs where
  call_args := [t2_idw, t2_abin]
  function_params := [(t2_idp, t2_primp), (t2_idq, t2_primq)]
  function_type := lf "primitive_type" 0 3 ⟨0, 0⟩ ⟨0, 3⟩
  function_body := t2_body
  returns := [(t2_ret, t2_binexp)]

/-- Callsite point of the inline scenario (on the `f` of `z=f(...)`). -/
def p2 : Point := ⟨4, 2⟩

/-- Definition point of the inline scenario (on the `f` of `int f(...)`). -/
def tp2 : Point := ⟨0, 4⟩

/-- The byte offset at which line `row` of `src` starts (each earlier
line contributes its length plus its newline). -/
def lineStart (src : List Char) (row : Nat) : Nat :=
  ((((src.splitOn '\n')).take row).map (fun l => l.length + 1)).sum

def exceptDecEq {ε α : Type} [DecidableEq ε] [DecidableEq α] :
    (a b : Except ε α) → Decidable (a = b)
  | .ok x, .ok y =>
    if h : x = y then isTrue (by rw [h]) else isFalse (by intro he; cases he; exact h rfl)
  | .error x, .error y =>
    if h : x = y then isTrue (by rw [h]) else isFalse (by intro he; cases he; exact h rfl)
  | .ok _, .error _ => isFalse (by intro he; cases he)
  | .error _, .ok _ => isFalse (by intro he; cases he)

instance {ε α : Type} [DecidableEq ε] [DecidableEq α] : DecidableEq (Except ε α) :=
  exceptDecEq

/-- Encode a point for lexicographic comparison. -/
def ptKey (p : Point) : Lex (Nat × Nat) := toLex (p.row, p.col)

/-- The span discipline a parse tree obeys, over an abstract coordinate
(instantiated at byte offsets and at lexicographic points): every node
has a non-empty span, sibling spans are ordered, child spans lie within
the parent's, and a parent with children ends where its last child ends
(all text belongs to leaf tokens). -/
def SpanOk {g : Type} [LinearOrder g] (s e : Node → g) (root : Node) : Prop :=
  (∀ m ∈ preorder root, s m < e m) ∧
  (∀ m ∈ preorder root, List.Chain' (fun a b => e a ≤ s b) m.children) ∧
  (∀ m ∈ preorder root, ∀ c ∈ m.children, s m ≤ s c ∧ e c ≤ e m) ∧
  (∀ m ∈ preorder root, ∀ c, m.children.getLast? = some c → e c = e m)

/-! ## Theorems -/

theorem affects_nil_left (b : List String) : affects [] b = true := by
  simp [affects]

theorem affects_nil_right (a : List String) : affects a [] = true := by
  simp [affects]

theorem affects_cons (x y : String) (a b : List String) :
    affects (x :: a) (y :: b) = ((x == y) && affects a b) := by
  simp only [affects, List.length_cons, Nat.succ_min_succ, List.take_succ_cons,
    List.zip_cons_cons, List.all_cons]

/-- `NameRef::affects` characterised: full prefix/overlap content, with
reflexivity and symmetry. -/
theorem affects_spec (a b : List String) :
    (affects a b = true ↔ (∃ t, b = a ++ t) ∨ (∃ t, a = b ++ t))
    ∧ affects a a = true ∧ affects a b = affects b a := by
  induction a generalizing b with
  | nil =>
    refine ⟨?_, affects_nil_left [], ?_⟩
    · simp [affects_nil_left]
    · cases b <;> simp [affects_nil_left, affects_nil_right]
  | cons x a ih =>
    refine ⟨?_, ?_, ?_⟩
    · cases b with
      | nil =>
        simp only [affects_nil_right, true_iff]
        exact Or.inr ⟨x :: a, rfl⟩
      | cons y b =>
        rw [affects_cons]
        constructor
        · intro h
          rcases Bool.and_eq_true_iff.mp h with ⟨hxy, hab⟩
          have hxy' : x = y := by simpa using hxy
          rcases ((ih b).1).mp hab with ⟨t, ht⟩ | ⟨t, ht⟩
          · exact Or.inl ⟨t, by rw [hxy', ht]; rfl⟩
          · exact Or.inr ⟨t, by rw [hxy', ht]; rfl⟩
        · intro h
          rcases h with ⟨t, ht⟩ | ⟨t, ht⟩
          · injection ht with h1 h2
            refine Bool.and_eq_true_iff.mpr ⟨by simp [h1], ((ih b).1).mpr (Or.inl ⟨t, h2⟩)⟩
          · injection ht with h1 h2
            refine Bool.and_eq_true_iff.mpr ⟨by simp [h1], ((ih b).1).mpr (Or.inr ⟨t, h2⟩)⟩
    · rw [affects_cons]
      exact Bool.and_eq_true_iff.mpr ⟨by simp, (ih a).2.1⟩
    · cases b with
      | nil => simp [affects_nil_left, affects_nil_right]
      | cons y b =>
        rw [affects_cons, affects_cons, (ih b).2.2]
        cases h : (x == y)
        · have : (y == x) = false := by
            simp only [beq_eq_false_iff_ne] at h ⊢; exact fun he => h he.symm
          simp [this, h]
        · have : (y == x) = true := by
            simp only [beq_iff_eq] at h ⊢; exact h.symm
          simp [this, h]

/-- C4.  `NameRef::affects` holds exactly when one component sequence is
a prefix of the other (there is a `t` completing the shorter to the
longer); in particular it is reflexive and symmetric. -/
theorem c4_affects (a b : List String) :
    (affects a b = true ↔ (∃ t, b = a ++ t) ∨ (∃ t, a = b ++ t))
    ∧ affects a a = true ∧ affects a b = affects b a := affects_spec a b

/-- `affects` is reflexive (direct corollary, used by later proofs). -/
theorem affects_refl (a : List String) : affects a a = true := (affects_spec a a).2.1

theorem intercalate_cons_ne_nil {α : Type} (x a : List α) (b : List (List α)) (h : b ≠ []) :
    List.intercalate x (a :: b) = a ++ x ++ List.intercalate x b := by
  cases b with
  | nil => exact absurd rfl h
  | cons c cs => simp [List.intercalate]

theorem splitOn_char_ne_nil (l : List Char) (c : Char) : l.splitOn c ≠ [] := by
  unfold List.splitOn; exact List.splitOnP_ne_nil _ _

theorem dropLast_append_ne_nil {α : Type} (l1 l2 : List α) (h : l2 ≠ []) :
    (l1 ++ l2).dropLast = l1 ++ l2.dropLast := by
  induction l1 with
  | nil => rfl
  | cons a t ih =>
    cases h2 : t ++ l2 with
    | nil =>
      rcases List.append_eq_nil.mp h2 with ⟨_, h3⟩
      exact absurd h3 h
    | cons b u => simp [List.dropLast, h2, ← ih]

/-- C9.  Applying an empty range list with the range applicator returns
the source text unchanged and the anchor point unchanged. -/
theorem c9_delete_ranges_empty (src : List Char) (p : Point) :
    delete_ranges src [] p = (src, p) := by
  unfold delete_ranges
  simp only [List.foldl_nil, List.drop_zero, List.nil_append]
  rw [show List.intercalate ['\n'] (src.splitOn '\n') = ['\n'].intercalate (src.splitOn '\n') from rfl,
      List.intercalate_splitOn]

theorem passNode_le (cfg : SlicerConfig) (src : List Char) (dir : SliceDirection)
    (tns : Finset (List String)) (d : Node) : tns ⊆ passNode cfg src dir tns d := by
  unfold passNode
  repeat' split
  all_goals first
    | exact Finset.Subset.refl _
    | exact Finset.subset_union_left

theorem passNode_subset (cfg : SlicerConfig) (src : List Char) (dir : SliceDirection)
    (tns : Finset (List String)) (d : Node) :
    passNode cfg src dir tns d ⊆ tns ∪ nodeNames cfg src d := by
  unfold passNode nodeNames
  repeat' split
  all_goals try exact Finset.subset_union_left
  all_goals intro x hx
  all_goals simp only [Finset.mem_union] at hx ⊢
  all_goals tauto

theorem passNode_mono (cfg : SlicerConfig) (src : List Char) (dir : SliceDirection)
    (tns tns' : Finset (List String)) (d : Node) (h : tns ⊆ tns') :
    passNode cfg src dir tns d ⊆ passNode cfg src dir tns' d := by
  unfold passNode
  split
  · exact h
  · split
    · split
      · rename_i dn rn heq1 heq2 hdir
        by_cases hc : ∃ t ∈ tns, ∃ x ∈ referencedNames cfg src dn, affects t x
        · have hc' : ∃ t ∈ tns', ∃ x ∈ referencedNames cfg src dn, affects t x := by
            obtain ⟨t, ht, hx⟩ := hc; exact ⟨t, h ht, hx⟩
          rw [if_pos hc, if_pos hc']
          exact Finset.union_subset_union_left h
        · rw [if_neg hc]
          by_cases hc' : ∃ t ∈ tns', ∃ x ∈ referencedNames cfg src dn, affects t x
          · rw [if_pos hc']
            exact h.trans Finset.subset_union_left
          · rw [if_neg hc']; exact h
      · rename_i dn rn heq1 heq2 hdir
        by_cases hc : ∃ t ∈ tns, ∃ x ∈ referencedNames cfg src rn, affects t x
        · have hc' : ∃ t ∈ tns', ∃ x ∈ referencedNames cfg src rn, affects t x := by
            obtain ⟨t, ht, hx⟩ := hc; exact ⟨t, h ht, hx⟩
          rw [if_pos hc, if_pos hc']
          exact Finset.union_subset_union_left h
        · rw [if_neg hc]
          by_cases hc' : ∃ t ∈ tns', ∃ x ∈ referencedNames cfg src rn, affects t x
          · rw [if_pos hc']
            exact h.trans Finset.subset_union_left
          · rw [if_neg hc']; exact h
    · exact h

theorem foldl_passNode_le (cfg : SlicerConfig) (src : List Char) (dir : SliceDirection)
    (l : List Node) (acc : Finset (List String)) :
    acc ⊆ l.foldl (passNode cfg src dir) acc := by
  induction l generalizing acc with
  | nil => exact Finset.Subset.refl _
  | cons d rest ih =>
    exact (passNode_le cfg src dir acc d).trans (ih (passNode cfg src dir acc d))

theorem pass_le (cfg : SlicerConfig) (src : List Char) (scope : Node)
    (dir : SliceDirection) (tns : Finset (List String)) :
    tns ⊆ pass cfg src scope dir tns :=
  foldl_passNode_le cfg src dir (preorder scope) tns

theorem foldl_passNode_mono (cfg : SlicerConfig) (src : List Char) (dir : SliceDirection)
    (l : List Node) (a a' : Finset (List String)) (h : a ⊆ a') :
    l.foldl (passNode cfg src dir) a ⊆ l.foldl (passNode cfg src dir) a' := by
  induction l generalizing a a' with
  | nil => exact h
  | cons d rest ih => exact ih _ _ (passNode_mono cfg src dir a a' d h)

theorem pass_mono (cfg : SlicerConfig) (src : List Char) (scope : Node)
    (dir : SliceDirection) (tns tns' : Finset (List String)) (h : tns ⊆ tns') :
    pass cfg src scope dir tns ⊆ pass cfg src scope dir tns' :=
  foldl_passNode_mono cfg src dir (preorder scope) tns tns' h

theorem foldl_passNode_subset (cfg : SlicerConfig) (src : List Char) (dir : SliceDirection)
    (l : List Node) (acc B : Finset (List String))
    (hB : ∀ d ∈ l, nodeNames cfg src d ⊆ B) :
    l.foldl (passNode cfg src dir) acc ⊆ acc ∪ B := by
  induction l generalizing acc with
  | nil => exact Finset.subset_union_left
  | cons d rest ih =>
    have h1 : rest.foldl (passNode cfg src dir) (passNode cfg src dir acc d) ⊆
        passNode cfg src dir acc d ∪ B :=
      ih (passNode cfg src dir acc d) (fun x hx => hB x (List.mem_cons_of_mem d hx))
    refine h1.trans ?_
    intro x hx
    rcases Finset.mem_union.mp hx with h2 | h2
    · rcases Finset.mem_union.mp (passNode_subset cfg src dir acc d h2) with h3 | h3
      · exact Finset.mem_union.mpr (Or.inl h3)
      · exact Finset.mem_union.mpr (Or.inr (hB d (List.mem_cons_self d rest) h3))
    · exact Finset.mem_union.mpr (Or.inr h2)

theorem foldl_union_le {α : Type} [DecidableEq α] (f : Node → Finset α) (l : List Node)
    (acc : Finset α) : acc ⊆ l.foldl (fun a d => a ∪ f d) acc := by
  induction l generalizing acc with
  | nil => exact Finset.Subset.refl _
  | cons d rest ih => exact Finset.subset_union_left.trans (ih (acc ∪ f d))

theorem foldl_union_mem {α : Type} [DecidableEq α] (f : Node → Finset α) (l : List Node)
    (d : Node) (hd : d ∈ l) : ∀ acc : Finset α,
    f d ⊆ l.foldl (fun a x => a ∪ f x) acc := by
  induction l with
  | nil => exact absurd hd (List.not_mem_nil d)
  | cons e rest ih =>
    intro acc
    rcases List.mem_cons.mp hd with he | he
    · subst he
      exact Finset.subset_union_right.trans (foldl_union_le f rest (acc ∪ f d))
    · exact ih he (acc ∪ f e)

theorem pass_subset (cfg : SlicerConfig) (src : List Char) (scope : Node)
    (dir : SliceDirection) (tns : Finset (List String)) :
    pass cfg src scope dir tns ⊆ tns ∪ potentialNames cfg src scope :=
  foldl_passNode_subset cfg src dir (preorder scope) tns (potentialNames cfg src scope)
    (fun d hd => foldl_union_mem (nodeNames cfg src) (preorder scope) d hd ∅)

theorem propagateFuel_le (cfg : SlicerConfig) (src : List Char) (scope : Node)
    (dir : SliceDirection) (fuel : Nat) (tns : Finset (List String)) :
    tns ⊆ propagateFuel cfg src scope dir fuel tns := by
  induction fuel generalizing tns with
  | zero => exact Finset.Subset.refl _
  | succ fuel ih =>
    unfold propagateFuel
    by_cases h : (pass cfg src scope dir tns).card = tns.card
    · simp only [h, if_true]
      exact pass_le cfg src scope dir tns
    · simp only [h, if_false]
      exact (pass_le cfg src scope dir tns).trans (ih (pass cfg src scope dir tns))

theorem propagateFuel_least (cfg : SlicerConfig) (src : List Char) (scope : Node)
    (dir : SliceDirection) (fuel : Nat) (tns S : Finset (List String))
    (h1 : tns ⊆ S) (h2 : pass cfg src scope dir S ⊆ S) :
    propagateFuel cfg src scope dir fuel tns ⊆ S := by
  induction fuel generalizing tns with
  | zero => exact h1
  | succ fuel ih =>
    unfold propagateFuel
    have hp : pass cfg src scope dir tns ⊆ S :=
      (pass_mono cfg src scope dir tns S h1).trans h2
    by_cases h : (pass cfg src scope dir tns).card = tns.card
    · simp only [h, if_true]; exact hp
    · simp only [h, if_false]; exact ih _ hp

theorem propagateFuel_bound (cfg : SlicerConfig) (src : List Char) (scope : Node)
    (dir : SliceDirection) (fuel : Nat) (tns : Finset (List String)) :
    propagateFuel cfg src scope dir fuel tns ⊆ tns ∪ potentialNames cfg src scope := by
  induction fuel generalizing tns with
  | zero => exact Finset.subset_union_left
  | succ fuel ih =>
    unfold propagateFuel
    by_cases h : (pass cfg src scope dir tns).card = tns.card
    · simp only [h, if_true]; exact pass_subset cfg src scope dir tns
    · simp only [h, if_false]
      refine (ih (pass cfg src scope dir tns)).trans ?_
      intro x hx
      rcases Finset.mem_union.mp hx with h2 | h2
      · exact pass_subset cfg src scope dir tns h2
      · exact Finset.mem_union.mpr (Or.inr h2)

theorem propagateFuel_fixed (cfg : SlicerConfig) (src : List Char) (scope : Node)
    (dir : SliceDirection) (fuel : Nat) (tns : Finset (List String))
    (h : (potentialNames cfg src scope ∪ tns).card - tns.card < fuel) :
    pass cfg src scope dir (propagateFuel cfg src scope dir fuel tns) =
      propagateFuel cfg src scope dir fuel tns := by
  induction fuel generalizing tns with
  | zero => exact absurd h (by omega)
  | succ fuel ih =>
    unfold propagateFuel
    by_cases hc : (pass cfg src scope dir tns).card = tns.card
    · simp only [hc, if_true]
      have he : tns = pass cfg src scope dir tns :=
        Finset.eq_of_subset_of_card_le (pass_le cfg src scope dir tns) (le_of_eq hc)
      conv_lhs => rw [← he]
    · simp only [hc, if_false]
      apply ih
      have hsub : pass cfg src scope dir tns ⊆ tns ∪ potentialNames cfg src scope :=
        pass_subset cfg src scope dir tns
      have hle : tns.card ≤ (pass cfg src scope dir tns).card :=
        Finset.card_le_card (pass_le cfg src scope dir tns)
      have hueq : potentialNames cfg src scope ∪ pass cfg src scope dir tns =
          potentialNames cfg src scope ∪ tns := by
        apply Finset.Subset.antisymm
        · apply Finset.union_subset Finset.subset_union_left
          refine hsub.trans ?_
          intro x hx
          rcases Finset.mem_union.mp hx with h2 | h2
          · exact Finset.mem_union.mpr (Or.inr h2)
          · exact Finset.mem_union.mpr (Or.inl h2)
        · exact Finset.union_subset_union_right (pass_le cfg src scope dir tns)
      rw [hueq]
      have hcardle : (pass cfg src scope dir tns).card ≤
          (potentialNames cfg src scope ∪ tns).card := by
        apply Finset.card_le_card
        refine hsub.trans ?_
        intro x hx
        rcases Finset.mem_union.mp hx with h2 | h2
        · exact Finset.mem_union.mpr (Or.inr h2)
        · exact Finset.mem_union.mpr (Or.inl h2)
      omega

theorem propagateFuel_iterate (cfg : SlicerConfig) (src : List Char) (scope : Node)
    (dir : SliceDirection) (fuel : Nat) (tns : Finset (List String)) :
    ∃ k ≤ fuel, propagateFuel cfg src scope dir fuel tns =
      (pass cfg src scope dir)^[k] tns := by
  induction fuel generalizing tns with
  | zero => exact ⟨0, le_refl 0, rfl⟩
  | succ fuel ih =>
    unfold propagateFuel
    by_cases hc : (pass cfg src scope dir tns).card = tns.card
    · simp only [hc, if_true]
      refine ⟨1, by omega, ?_⟩
      rw [Function.iterate_one]
    · simp only [hc, if_false]
      obtain ⟨k, hk, he⟩ := ih (pass cfg src scope dir tns)
      refine ⟨k + 1, by omega, ?_⟩
      rw [Function.iterate_succ_apply, he]

/-- C1.  The target set produced by `propagate_targets` is the least
fixed point of the one-pass propagation rule above the initial set: the
initial targets are contained in it, one more pass (visiting every
descendant of the enclosing function, adding all `refs`-field names when
some target affects a `defs`-field name under `Backward`, and
symmetrically under `Forward`, skipping nodes missing either field) adds
nothing — the loop having stopped exactly when a pass added no new name
— and it is contained in every pass-closed superset of the initial
targets. -/
theorem c1_propagate_fixed_point (cfg : SlicerConfig) (src : List Char) (scope : Node)
    (init : Finset (List String)) (dir : SliceDirection) :
    init ⊆ propagate_targets cfg src scope init dir
    ∧ pass cfg src scope dir (propagate_targets cfg src scope init dir) =
        propagate_targets cfg src scope init dir
    ∧ ∀ S : Finset (List String), init ⊆ S → pass cfg src scope dir S ⊆ S →
        propagate_targets cfg src scope init dir ⊆ S := by
  refine ⟨propagateFuel_le cfg src scope dir _ init, ?_, ?_⟩
  · exact propagateFuel_fixed cfg src scope dir _ init (by omega)
  · intro S h1 h2
    exact propagateFuel_least cfg src scope dir _ init S h1 h2

/-- C1 witness: on the concrete backward-slice scenario the propagated
set is `{[b], [a]}`; it contains the initial target, and the least
fixed point property instantiated at the concrete pass-closed superset
`{[b], [a]}` bounds it. -/
theorem c1_witness :
    ({["b"]} : Finset (List String)) ⊆
      propagate_targets cConfig src1 t1_fdef {["b"]} .Backward
    ∧ propagate_targets cConfig src1 t1_fdef {["b"]} .Backward = {["b"], ["a"]}
    ∧ propagate_targets cConfig src1 t1_fdef {["b"]} .Backward ⊆ {["b"], ["a"]} := by
  refine ⟨(c1_propagate_fixed_point cConfig src1 t1_fdef {["b"]} .Backward).1, by decide,
    (c1_propagate_fixed_point cConfig src1 t1_fdef {["b"]} .Backward).2.2
      {["b"], ["a"]} (by decide) (by decide)⟩

/-- C10.  The propagation loop terminates: every pass only grows the
target set, a pass can only add names referenced by propagating nodes
inside the scope, hence the set is bounded by the initial targets plus
the names in scope, and the loop's result is reached by iterating the
pass at most `|names in scope ∪ initial| + 1` times (every non-final
pass strictly increases the bounded cardinality). -/
theorem c10_propagate_terminates (cfg : SlicerConfig) (src : List Char) (scope : Node)
    (init : Finset (List String)) (dir : SliceDirection) :
    (∀ T : Finset (List String), T ⊆ pass cfg src scope dir T)
    ∧ (∀ T : Finset (List String),
        pass cfg src scope dir T ⊆ T ∪ potentialNames cfg src scope)
    ∧ propagate_targets cfg src scope init dir ⊆ init ∪ potentialNames cfg src scope
    ∧ ∃ k ≤ (potentialNames cfg src scope ∪ init).card + 1,
        propagate_targets cfg src scope init dir = (pass cfg src scope dir)^[k] init := by
  refine ⟨fun T => pass_le cfg src scope dir T, fun T => pass_subset cfg src scope dir T,
    propagateFuel_bound cfg src scope dir _ init, ?_⟩
  exact propagateFuel_iterate cfg src scope dir _ init

/-- C10 witness: on the concrete backward-slice scenario, one pass from
the initial `{[b]}` keeps growth monotone, and the propagated result is
inside the initial set united with the names in scope. -/
theorem c10_witness :
    ({["b"]} : Finset (List String)) ⊆ pass cConfig src1 t1_fdef .Backward {["b"]}
    ∧ propagate_targets cConfig src1 t1_fdef {["b"]} .Backward ⊆
        ({["b"]} : Finset (List String)) ∪ potentialNames cConfig src1 t1_fdef := by
  exact ⟨(c10_propagate_terminates cConfig src1 t1_fdef {["b"]} .Backward).1 {["b"]},
    (c10_propagate_terminates cConfig src1 t1_fdef {["b"]} .Backward).2.2.1⟩

/-- C8 counterexample: the claim that `slice` fails on every tree
containing a parser error node is false on the code — the Rust leaves
the check as a `TODO` (`slicer.rs` line 357) and the only `ParseError`
variant of `SliceError` is commented out.  On the concrete tree of the
backward-slice scenario with its third declaration garbled into an
`ERROR` node, `slice` succeeds (returning no deletions). -/
theorem c8_counterexample :
    hasErrorNode tree1e = true
    ∧ Slicer.slice cConfig src1 tree1e p1 .Backward = some (.ok []) := by
  constructor
  · decide
  · decide

/-- C8 (amended).  `slice` does not require the parsed source to be
free of parser errors: it never inspects the tree for error nodes, and
for every tree — also one containing an `ERROR` node — it succeeds
whenever the name lookup at the point and the walk up to an enclosing
scope succeed, returning the coalesced deletion ranges. -/
theorem c8_slice_ignores_errors (cfg : SlicerConfig) (src : List Char) (root : Node)
    (p : Point) (dir : SliceDirection) (tn : NameRef) (tf : Node)
    (_herr : hasErrorNode root = true)
    (hname : nameAtPoint cfg src root p = some tn)
    (hscope : scopeClimb cfg root tn.node = some tf) :
    Slicer.slice cfg src root p dir =
      some (.ok (coalesce_ranges root (flatten_unreferenced cfg src tf
        (propagate_targets cfg src tf {tn.components} dir)))) := by
  unfold Slicer.slice
  simp only [hname, hscope]

/-- C8 witness: the amended theorem applied to the concrete erroneous
tree, all hypotheses evaluated. -/
theorem c8_witness :
    hasErrorNode tree1e = true
    ∧ Slicer.slice cConfig src1 tree1e p1 .Backward =
        some (.ok (coalesce_ranges tree1e (flatten_unreferenced cConfig src1
          (tree1e.children.getD 0 default)
          (propagate_targets cConfig src1 (tree1e.children.getD 0 default)
            {["b"]} .Backward)))) := by
  refine ⟨by decide, ?_⟩
  exact c8_slice_ignores_errors cConfig src1 tree1e p1 .Backward
    ⟨lf "identifier" 43 44 ⟨4, 7⟩ ⟨4, 8⟩, ["b"]⟩
    (tree1e.children.getD 0 default) (by decide) (by decide) (by decide)

theorem computeCallsiteRewrite_ne_one (rets : List (Node × Node))
    (h : rets.length ≠ 1) : computeCallsiteRewrite rets = ([], .none) := by
  match rets with
  | [] => rfl
  | [x] => simp at h
  | x :: y :: rest => rfl

/-- C5.  On every successful inline: with exactly one return in the
callee, the emitted text is the assembly in which that return statement
is marked for deletion in the inlined body (rewrite map sends it to
nothing) and the return value, passed through the rename map by
`rewrite_names`, is emitted in place of the call; with zero returns, or
with more than one, the body carries no rewrite and nothing is emitted
in place of the call. -/
theorem c5_callsite_rewrite (cfg : SlicerConfig) (src targetContent : List Char)
    (rootNode fdRoot : Node) (point target_point : Point) (q : InlineInputs)
    (out : List Char) (callsite : Node) (temps : List InlineTempVar)
    (rename_map : List (List String × List Char))
    (hcs : nodeOfKindForPoint cfg.function_call_types point rootNode = some callsite)
    (hrm : buildRenameMap cfg src targetContent fdRoot
            (q.call_args.zip q.function_params) ([], []) = .ok (temps, rename_map))
    (hout : Slicer.inline cfg src targetContent rootNode fdRoot point target_point q =
            some (.ok out)) :
    (∀ rs rv, q.returns = [(rs, rv)] →
      out = inlineBodyText cfg src targetContent callsite q.function_body temps
              rename_map [(rs, RewriteValue.none)]
            ++ rewrite_names cfg src rv rename_map targetContent
            ++ src.drop callsite.endByte)
    ∧ (q.returns.length ≠ 1 →
      out = inlineBodyText cfg src targetContent callsite q.function_body temps
              rename_map []
            ++ src.drop callsite.endByte) := by
  unfold Slicer.inline at hout
  rw [hcs] at hout
  simp only [] at hout
  cases hfd : nodeOfKindForPoint cfg.slice_scope_types target_point fdRoot with
  | none => rw [hfd] at hout; simp at hout
  | some fd =>
    rw [hfd] at hout
    simp only [hrm] at hout
    cases hass : inlineAssemble cfg src targetContent callsite q.function_body temps
        rename_map (computeCallsiteRewrite q.returns) with
    | none => rw [hass] at hout; simp at hout
    | some out' =>
      rw [hass] at hout
      simp only [Option.some.injEq, Except.ok.injEq] at hout
      subst hout
      constructor
      · intro rs rv hret
        rw [hret] at hass
        unfold inlineAssemble at hass
        simp only [computeCallsiteRewrite] at hass
        split at hass
        · simp only [Option.some.injEq] at hass
          rw [← hass]
        · cases hass
      · intro hlen
        rw [computeCallsiteRewrite_ne_one q.returns hlen] at hass
        unfold inlineAssemble at hass
        dsimp only at hass
        split at hass
        · simp only [Option.some.injEq] at hass
          rw [← hass]
          simp
        · cases hass

/-- C5 witness: the single-return case of the concrete inline scenario,
the assembly evaluated. -/
theorem c5_witness :
    Slicer.inline cConfig src2 src2 tree2 tree2 p2 tp2 q2 =
      some (.ok "int f(int p,int q)\x7b\nreturn p+q;\n\x7d\nint g()\x7b\nint inline_q = 1+2;\nz=w+inline_q;\n\x7d".data)
    ∧ "int f(int p,int q)\x7b\nreturn p+q;\n\x7d\nint g()\x7b\nint inline_q = 1+2;\nz=w+inline_q;\n\x7d".data =
      inlineBodyText cConfig src2 src2 t2_call q2.function_body
          [⟨"inline_q".data, "1+2".data, "int".data⟩]
          [(["q"], "inline_q".data), (["p"], "w".data)] [(t2_ret, RewriteValue.none)]
        ++ rewrite_names cConfig src2 t2_binexp
            [(["q"], "inline_q".data), (["p"], "w".data)] src2
        ++ src2.drop t2_call.endByte := by
  refine ⟨by decide, ?_⟩
  exact (c5_callsite_rewrite cConfig src2 src2 tree2 tree2 p2 tp2 q2 _ t2_call
    [⟨"inline_q".data, "1+2".data, "int".data⟩]
    [(["q"], "inline_q".data), (["p"], "w".data)]
    (by decide) (by decide) (by decide)).1 t2_ret t2_binexp rfl

theorem find?_append_of_none {α : Type} (p : α → Bool) (l1 l2 : List α)
    (h : ∀ x ∈ l1, p x = false) :
    List.find? p (l1 ++ l2) = List.find? p l2 := by
  induction l1 with
  | nil => rfl
  | cons a t ih =>
    rw [List.cons_append, List.find?]
    rw [h a (List.mem_cons_self a t)]
    exact ih (fun x hx => h x (List.mem_cons_of_mem a hx))

/-- The key resolved for an argument/parameter triple: the components of
the name at the parameter name node's start position. -/
def keyOf (cfg : SlicerConfig) (src : List Char) (fdRoot : Node)
    (e : Node × Node × Node) : Option (List String) :=
  (nameAtPoint cfg src fdRoot e.2.1.startPoint).map NameRef.components

theorem buildRenameMap_shape (cfg : SlicerConfig) (src targetContent : List Char)
    (fdRoot : Node) :
    ∀ (pairs : List (Node × Node × Node)) (te : List InlineTempVar)
      (rm : List (List String × List Char)) temps rmap,
    buildRenameMap cfg src targetContent fdRoot pairs (te, rm) = .ok (temps, rmap) →
    ∃ newE newT, rmap = newE ++ rm ∧ temps = te ++ newT ∧
      newE.map (fun e => some e.1) = (pairs.map (keyOf cfg src fdRoot)).reverse := by
  intro pairs
  induction pairs with
  | nil =>
    intro te rm temps rmap hok
    unfold buildRenameMap at hok
    simp only [Except.ok.injEq, Prod.mk.injEq] at hok
    exact ⟨[], [], hok.2.symm, by rw [hok.1, List.append_nil], by simp⟩
  | cons hd rest ih =>
    intro te rm temps rmap hok
    obtain ⟨arg, pn, pt⟩ := hd
    unfold buildRenameMap at hok
    cases hname : nameAtPoint cfg src fdRoot pn.startPoint with
    | none => rw [hname] at hok; cases hok
    | some pname =>
      rw [hname] at hok
      simp only [] at hok
      by_cases hsimple : cfg.constant_types.contains arg.kind ∨ cfg.name_types.contains arg.kind
      · rw [if_pos hsimple] at hok
        obtain ⟨newE, newT, h1, h2, h3⟩ := ih te
          ((pname.components, sliceBytes src arg.startByte arg.endByte) :: rm) temps rmap hok
        refine ⟨newE ++ [(pname.components, sliceBytes src arg.startByte arg.endByte)], newT,
          by rw [h1, List.append_assoc]; rfl, h2, ?_⟩
        rw [List.map_append, h3]
        simp [keyOf, hname]
      · rw [if_neg hsimple] at hok
        obtain ⟨newE, newT, h1, h2, h3⟩ := ih
          (te ++ [⟨"inline_".data ++
            sliceBytes targetContent pname.node.startByte pname.node.endByte,
            sliceBytes src arg.startByte arg.endByte,
            sliceBytes targetContent pt.startByte pt.endByte⟩])
          ((pname.components, "inline_".data ++
            sliceBytes targetContent pname.node.startByte pname.node.endByte) :: rm)
          temps rmap hok
        refine ⟨newE ++ [(pname.components, "inline_".data ++
            sliceBytes targetContent pname.node.startByte pname.node.endByte)],
          ⟨"inline_".data ++
            sliceBytes targetContent pname.node.startByte pname.node.endByte,
            sliceBytes src arg.startByte arg.endByte,
            sliceBytes targetContent pt.startByte pt.endByte⟩ :: newT,
          by rw [h1, List.append_assoc]; rfl, by rw [h2, List.append_assoc]; rfl, ?_⟩
        rw [List.map_append, h3]
        simp [keyOf, hname]

theorem buildRenameMap_lookup_aux (cfg : SlicerConfig) (src targetContent : List Char)
    (fdRoot : Node) :
    ∀ (pairs : List (Node × Node × Node)) (te : List InlineTempVar)
      (rm : List (List String × List Char)) temps rmap,
    buildRenameMap cfg src targetContent fdRoot pairs (te, rm) = .ok (temps, rmap) →
    (pairs.map (keyOf cfg src fdRoot)).Nodup →
    ∀ arg pn pt, (arg, pn, pt) ∈ pairs →
    ∀ pname, nameAtPoint cfg src fdRoot pn.startPoint = some pname →
      ((cfg.constant_types.contains arg.kind ∨ cfg.name_types.contains arg.kind) →
        renameLookup rmap pname.components =
          some (sliceBytes src arg.startByte arg.endByte))
      ∧ (¬ (cfg.constant_types.contains arg.kind ∨ cfg.name_types.contains arg.kind) →
        renameLookup rmap pname.components =
          some ("inline_".data ++
            sliceBytes targetContent pname.node.startByte pname.node.endByte)
        ∧ (⟨"inline_".data ++
            sliceBytes targetContent pname.node.startByte pname.node.endByte,
            sliceBytes src arg.startByte arg.endByte,
            sliceBytes targetContent pt.startByte pt.endByte⟩ : InlineTempVar) ∈ temps) := by
  intro pairs
  induction pairs with
  | nil =>
    intro te rm temps rmap hok hnd arg pn pt hmem
    exact absurd hmem (List.not_mem_nil _)
  | cons hd rest ih =>
    intro te rm temps rmap hok hnd arg pn pt hmem pname hname
    obtain ⟨arg0, pn0, pt0⟩ := hd
    unfold buildRenameMap at hok
    cases hname0 : nameAtPoint cfg src fdRoot pn0.startPoint with
    | none => rw [hname0] at hok; cases hok
    | some pname0 =>
      rw [hname0] at hok
      simp only [] at hok
      rcases List.mem_cons.mp hmem with hhd | hrest
      · -- the triple is the head
        injection hhd with e1 e2
        injection e2 with e2 e3
        subst e1; subst e2; subst e3
        have hp : pname0 = pname := by rw [hname0] at hname; injection hname
        subst hp
        -- the keys resolved for the rest do not collide with this key
        have hkey : ∀ e ∈ (rest.map (keyOf cfg src fdRoot)), e ≠ some pname0.components := by
          intro e he hcontra
          subst hcontra
          have hh := hnd
          rw [List.map_cons] at hh
          have h0 : keyOf cfg src fdRoot (arg, pn, pt) = some pname0.components := by
            simp [keyOf, hname0]
          rw [h0] at hh
          exact (List.nodup_cons.mp hh).1 he
        by_cases hsimple : cfg.constant_types.contains arg.kind ∨ cfg.name_types.contains arg.kind
        · rw [if_pos hsimple] at hok
          obtain ⟨newE, newT, h1, h2, h3⟩ := buildRenameMap_shape cfg src targetContent fdRoot
            rest te _ temps rmap hok
          constructor
          · intro _
            rw [h1]
            unfold renameLookup
            rw [find?_append_of_none _ newE _ (by
              intro x hx
              have hxk : some x.1 ∈ (rest.map (keyOf cfg src fdRoot)).reverse := by
                rw [← h3]; exact List.mem_map_of_mem (fun e => some e.1) hx
              have := hkey (some x.1) (List.mem_reverse.mp hxk)
              simp only [ne_eq, Option.some.injEq] at this
              simpa using this)]
            rw [List.find?]
            simp
          · intro hns; exact absurd hsimple hns
        · rw [if_neg hsimple] at hok
          obtain ⟨newE, newT, h1, h2, h3⟩ := buildRenameMap_shape cfg src targetContent fdRoot
            rest _ _ temps rmap hok
          constructor
          · intro hs; exact absurd hs hsimple
          · intro _
            constructor
            · rw [h1]
              unfold renameLookup
              rw [find?_append_of_none _ newE _ (by
                intro x hx
                have hxk : some x.1 ∈ (rest.map (keyOf cfg src fdRoot)).reverse := by
                  rw [← h3]; exact List.mem_map_of_mem (fun e => some e.1) hx
                have := hkey (some x.1) (List.mem_reverse.mp hxk)
                simp only [ne_eq, Option.some.injEq] at this
                simpa using this)]
              rw [List.find?]
              simp
            · rw [h2]
              refine List.mem_append.mpr (Or.inl ?_)
              exact List.mem_append.mpr (Or.inr (List.mem_cons_self _ _))
      · -- the triple is in the tail: apply the induction hypothesis
        have hnd' := (List.nodup_cons.mp (by
          simpa only [List.map_cons] using hnd)).2
        by_cases hsimple0 : cfg.constant_types.contains arg0.kind ∨
            cfg.name_types.contains arg0.kind
        · rw [if_pos hsimple0] at hok
          exact ih _ _ temps rmap hok hnd' arg pn pt hrest pname hname
        · rw [if_neg hsimple0] at hok
          exact ih _ _ temps rmap hok hnd' arg pn pt hrest pname hname

/-- C6.  For every positionally paired (argument, parameter) processed
by a successful rename-map construction (with pairwise distinct
resolved parameter names): a constant- or name-kind argument maps the
parameter name directly to the argument's source text; any other
argument maps it to `inline_<param>` and records the temporary carrying
the argument text as value and the parameter type text as type. -/
theorem c6_rename_map (cfg : SlicerConfig) (src targetContent : List Char)
    (fdRoot : Node) (pairs : List (Node × Node × Node)) (temps : List InlineTempVar)
    (rmap : List (List String × List Char))
    (hok : buildRenameMap cfg src targetContent fdRoot pairs ([], []) = .ok (temps, rmap))
    (hnd : (pairs.map (keyOf cfg src fdRoot)).Nodup) :
    ∀ arg pn pt, (arg, pn, pt) ∈ pairs →
    ∀ pname, nameAtPoint cfg src fdRoot pn.startPoint = some pname →
      ((cfg.constant_types.contains arg.kind ∨ cfg.name_types.contains arg.kind) →
        renameLookup rmap pname.components =
          some (sliceBytes src arg.startByte arg.endByte))
      ∧ (¬ (cfg.constant_types.contains arg.kind ∨ cfg.name_types.contains arg.kind) →
        renameLookup rmap pname.components =
          some ("inline_".data ++
            sliceBytes targetContent pname.node.startByte pname.node.endByte)
        ∧ (⟨"inline_".data ++
            sliceBytes targetContent pname.node.startByte pname.node.endByte,
            sliceBytes src arg.startByte arg.endByte,
            sliceBytes targetContent pt.startByte pt.endByte⟩ : InlineTempVar) ∈ temps) :=
  buildRenameMap_lookup_aux cfg src targetContent fdRoot pairs [] [] temps rmap hok hnd

/-- C6 witness: on the concrete inline scenario, the non-simple argument
`1+2` paired with parameter `q` yields the `inline_q` binding and its
temporary (argument text `1+2`, type text `int`); all hypotheses
evaluated. -/
theorem c6_witness :
    renameLookup [(["q"], "inline_q".data), (["p"], "w".data)] ["q"] =
      some ("inline_".data ++ sliceBytes src2 t2_idq.startByte t2_idq.endByte)
    ∧ (⟨"inline_".data ++ sliceBytes src2 t2_idq.startByte t2_idq.endByte,
        sliceBytes src2 t2_abin.startByte t2_abin.endByte,
        sliceBytes src2 t2_primq.startByte t2_primq.endByte⟩ : InlineTempVar) ∈
      [(⟨"inline_q".data, "1+2".data, "int".data⟩ : InlineTempVar)] := by
  have h := c6_rename_map cConfig src2 src2 tree2
    (q2.call_args.zip q2.function_params)
    [⟨"inline_q".data, "1+2".data, "int".data⟩]
    [(["q"], "inline_q".data), (["p"], "w".data)]
    (by decide) (by decide) t2_abin t2_idq t2_primq (by decide)
    ⟨t2_idq, ["q"]⟩ (by decide)
  exact h.2 (by decide)

theorem take_intercalate (lines : List (List Char)) :
    ∀ row, 0 < row → row < lines.length →
    (List.intercalate ['\n'] lines).take (((lines.take row).map (fun l => l.length + 1)).sum)
    = List.intercalate ['\n'] (lines.take row) ++ ['\n'] := by
  induction lines with
  | nil => intro row h1 h2; simp at h2
  | cons l rest ih =>
    intro row h1 h2
    rw [List.length_cons] at h2
    cases row with
    | zero => exact absurd h1 (by omega)
    | succ r =>
      have hrest : rest ≠ [] := by
        intro hre
        subst hre
        simp only [List.length_nil] at h2
        omega
      rw [List.take_succ_cons, List.map_cons, List.sum_cons,
        intercalate_cons_ne_nil ['\n'] l rest hrest]
      have hlen : l.length + 1 + ((rest.take r).map (fun x => x.length + 1)).sum =
          (l ++ ['\n']).length + ((rest.take r).map (fun x => x.length + 1)).sum := by
        simp
      rw [List.append_assoc, ← List.append_assoc l ['\n'], hlen, List.take_append]
      cases r with
      | zero =>
        simp [List.intercalate]
      | succ r' =>
        have hr1 : 0 < r' + 1 := by omega
        have hr2 : r' + 1 < rest.length := by omega
        rw [ih (r' + 1) hr1 hr2]
        have htk : rest.take (r' + 1) ≠ [] := by
          intro htk
          have hlt := congrArg List.length htk
          rw [List.length_take, List.length_nil] at hlt
          omega
        rw [intercalate_cons_ne_nil ['\n'] l (rest.take (r' + 1)) htk]
        simp [List.append_assoc]

theorem drop_intercalate (lines : List (List Char)) :
    ∀ row, row < lines.length →
    (List.intercalate ['\n'] lines).drop (((lines.take row).map (fun l => l.length + 1)).sum)
    = List.intercalate ['\n'] (lines.drop row) := by
  induction lines with
  | nil => intro row h2; simp at h2
  | cons l rest ih =>
    intro row h2
    rw [List.length_cons] at h2
    cases row with
    | zero => simp
    | succ r =>
      have hrest : rest ≠ [] := by
        intro hre
        subst hre
        simp only [List.length_nil] at h2
        omega
      rw [List.take_succ_cons, List.map_cons, List.sum_cons,
        intercalate_cons_ne_nil ['\n'] l rest hrest]
      have hlen : l.length + 1 + ((rest.take r).map (fun x => x.length + 1)).sum =
          (l ++ ['\n']).length + ((rest.take r).map (fun x => x.length + 1)).sum := by
        simp
      rw [List.append_assoc, ← List.append_assoc l ['\n'], hlen, List.drop_append,
        List.drop_succ_cons]
      exact ih r (by omega)

theorem take_intercalate_head (l : List Char) (rest : List (List Char)) (col : Nat)
    (h : col ≤ l.length) :
    (List.intercalate ['\n'] (l :: rest)).take col = l.take col := by
  cases rest with
  | nil => simp [List.intercalate]
  | cons x xs =>
    rw [intercalate_cons_ne_nil ['\n'] l (x :: xs) (by simp), List.append_assoc]
    exact List.take_append_of_le_length h

theorem foldl_lines_ends (ws dw : List Char) :
    ∀ ls : List (List Char), ls ≠ [] → ∀ acc : List Char,
    ∃ y, ls.foldl (fun a line => a ++ ws ++ stripLead dw line ++ ['\n']) acc =
      y ++ ['\n'] := by
  intro ls
  induction ls with
  | nil => intro h; exact absurd rfl h
  | cons x xs ih =>
    intro _ acc
    cases xs with
    | nil => exact ⟨acc ++ ws ++ stripLead dw x, rfl⟩
    | cons x2 xs2 => exact ih (by simp) _

theorem bodyText_ends_newline (cfg : SlicerConfig) (src targetContent : List Char)
    (callsite body : Node) (rewrite_map : List (Node × RewriteValue))
    (rename_map : List (List String × List Char)) :
    ∃ y, bodyText cfg src targetContent callsite body rewrite_map rename_map =
      y ++ ['\n'] := by
  unfold bodyText
  dsimp only
  exact foldl_lines_ends _ _ _ (splitOn_char_ne_nil _ _) _

theorem lineStart_zero (src : List Char) : lineStart src 0 = 0 := by
  simp [lineStart]

theorem intercalate_splitOn_eq (src : List Char) :
    List.intercalate ['\n'] (src.splitOn '\n') = src :=
  List.intercalate_splitOn src '\n'

theorem src_take_lineStart (src : List Char) (row : Nat) (h1 : 0 < row)
    (h2 : row < (src.splitOn '\n').length) :
    src.take (lineStart src row) =
    List.intercalate ['\n'] ((src.splitOn '\n').take row) ++ ['\n'] := by
  have h := take_intercalate (src.splitOn '\n') row h1 h2
  rw [intercalate_splitOn_eq src] at h
  unfold lineStart
  exact h

theorem src_drop_lineStart (src : List Char) (row : Nat)
    (h2 : row < (src.splitOn '\n').length) :
    src.drop (lineStart src row) =
    List.intercalate ['\n'] ((src.splitOn '\n').drop row) := by
  have h := drop_intercalate (src.splitOn '\n') row h2
  rw [intercalate_splitOn_eq src] at h
  unfold lineStart
  exact h

theorem lineSlice_eq (src : List Char) (row col : Nat)
    (h2 : row < (src.splitOn '\n').length)
    (h3 : col ≤ ((src.splitOn '\n').getD row []).length) :
    (src.drop (lineStart src row)).take col =
    ((src.splitOn '\n').getD row []).take col := by
  rw [src_drop_lineStart src row h2]
  have hdrop : (src.splitOn '\n').drop row =
      (src.splitOn '\n').getD row [] :: (src.splitOn '\n').drop (row + 1) := by
    rw [List.getD_eq_getElem _ _ h2]
    exact List.drop_eq_getElem_cons h2
  rw [hdrop]
  exact take_intercalate_head _ _ col h3

theorem inlineBodyText_decomp (cfg : SlicerConfig) (src targetContent : List Char)
    (callsite body : Node) (temps : List InlineTempVar)
    (rename_map : List (List String × List Char))
    (rewrite_map : List (Node × RewriteValue))
    (hrow : callsite.startPoint.row < (src.splitOn '\n').length)
    (hcol : callsite.startPoint.col ≤
      ((src.splitOn '\n').getD callsite.startPoint.row []).length) :
    ∃ mid1, inlineBodyText cfg src targetContent callsite body temps rename_map rewrite_map =
      src.take (lineStart src callsite.startPoint.row) ++ mid1 ++
      (src.drop (lineStart src callsite.startPoint.row)).take callsite.startPoint.col := by
  unfold inlineBodyText
  dsimp only
  obtain ⟨y, hy⟩ := bodyText_ends_newline cfg src targetContent callsite body
    rewrite_map rename_map
  rw [hy]
  have hD : (src.drop (lineStart src callsite.startPoint.row)).take callsite.startPoint.col =
      ((src.splitOn '\n').getD callsite.startPoint.row []).take callsite.startPoint.col :=
    lineSlice_eq src _ _ hrow hcol
  have hdl : ∀ P : List Char,
      (P ++ tempsText cfg src callsite temps ++ (y ++ ['\n'])).dropLast
      = P ++ tempsText cfg src callsite temps ++ y := by
    intro P
    rw [show P ++ tempsText cfg src callsite temps ++ (y ++ ['\n']) =
      (P ++ tempsText cfg src callsite temps ++ y) ++ ['\n'] by simp [List.append_assoc]]
    rw [dropLast_append_ne_nil _ ['\n'] (by simp)]
    simp
  rw [hdl]
  rcases Nat.eq_zero_or_pos callsite.startPoint.row with hr0 | hrpos
  · refine ⟨['\n'] ++ tempsText cfg src callsite temps ++ y, ?_⟩
    rw [hr0] at hD ⊢
    rw [lineStart_zero] at hD ⊢
    rw [hD]
    simp [List.intercalate, List.append_assoc]
  · refine ⟨tempsText cfg src callsite temps ++ y, ?_⟩
    rw [src_take_lineStart src _ hrpos hrow, hD]
    simp [List.append_assoc]

/-- C7.  On every successful inline, every byte of the caller source
before the callsite's line, the callsite line's prefix up to the call's
column, and every byte from the callsite's end byte onward appear
unchanged in the returned text, in order; the rewrite inserts material
only between them (the temporaries and inlined body before the line
prefix, the callsite rewrite after it). -/
theorem c7_inline_frame (cfg : SlicerConfig) (src targetContent : List Char)
    (rootNode fdRoot : Node) (point target_point : Point) (q : InlineInputs)
    (out : List Char) (callsite : Node)
    (hcs : nodeOfKindForPoint cfg.function_call_types point rootNode = some callsite)
    (hout : Slicer.inline cfg src targetContent rootNode fdRoot point target_point q =
            some (.ok out)) :
    ∃ mid1 mid2,
      out = src.take (lineStart src callsite.startPoint.row) ++ mid1 ++
            (src.drop (lineStart src callsite.startPoint.row)).take callsite.startPoint.col ++
            mid2 ++ src.drop callsite.endByte := by
  unfold Slicer.inline at hout
  rw [hcs] at hout
  simp only [] at hout
  cases hfd : nodeOfKindForPoint cfg.slice_scope_types target_point fdRoot with
  | none => rw [hfd] at hout; simp at hout
  | some fd =>
    rw [hfd] at hout
    cases hrm : buildRenameMap cfg src targetContent fdRoot
        (q.call_args.zip q.function_params) ([], []) with
    | error e => rw [hrm] at hout; simp at hout
    | ok st =>
      rw [hrm] at hout
      obtain ⟨temps, rename_map⟩ := st
      simp only [] at hout
      cases hass : inlineAssemble cfg src targetContent callsite q.function_body temps
          rename_map (computeCallsiteRewrite q.returns) with
      | none => rw [hass] at hout; simp at hout
      | some out' =>
        rw [hass] at hout
        simp only [Option.some.injEq, Except.ok.injEq] at hout
        subst hout
        unfold inlineAssemble at hass
        dsimp only at hass
        by_cases hcond : callsite.startPoint.row < (src.splitOn '\n').length ∧
            callsite.startPoint.col ≤
              ((src.splitOn '\n').getD callsite.startPoint.row []).length ∧
            callsite.endByte ≤ src.length
        · rw [if_pos hcond] at hass
          simp only [Option.some.injEq] at hass
          obtain ⟨hrow, hcol, hend⟩ := hcond
          obtain ⟨mid1, hmid1⟩ := inlineBodyText_decomp cfg src targetContent callsite
            q.function_body temps rename_map (computeCallsiteRewrite q.returns).1 hrow hcol
          rw [← hass, hmid1]
          refine ⟨mid1, (match (computeCallsiteRewrite q.returns).2 with
            | .str s => s
            | .node n => rewrite_names cfg src n rename_map targetContent
            | .none => []), ?_⟩
          simp [List.append_assoc]
        · rw [if_neg hcond] at hass
          cases hass

/-- C7 witness: the concrete inline scenario decomposed around the
callsite: the 43 bytes before the callsite's line, its `z=` prefix, and
the `;`-suffix from the call's end byte are preserved verbatim. -/
theorem c7_witness :
    ∃ mid1 mid2,
      "int f(int p,int q)\x7b\nreturn p+q;\n\x7d\nint g()\x7b\nint inline_q = 1+2;\nz=w+inline_q;\n\x7d".data =
        src2.take (lineStart src2 t2_call.startPoint.row) ++ mid1 ++
        (src2.drop (lineStart src2 t2_call.startPoint.row)).take t2_call.startPoint.col ++
        mid2 ++ src2.drop t2_call.endByte :=
  c7_inline_frame cConfig src2 src2 tree2 tree2 p2 tp2 q2 _ t2_call
    (by decide) (by decide)

theorem preorder_cons (k : String) (d : Bool) (f : Option String) (sb eb : Nat)
    (sp ep : Point) (cs : List Node) :
    preorder (.mk k d f sb eb sp ep cs) = .mk k d f sb eb sp ep cs :: preorderList cs :=
  rfl

theorem mem_preorder_self (n : Node) : n ∈ preorder n := by
  cases n
  rw [preorder_cons]
  exact List.mem_cons_self _ _

theorem preorder_ne_nil (n : Node) : preorder n ≠ [] := by
  cases n
  rw [preorder_cons]
  simp

theorem mem_preorderList_iff (x : Node) : ∀ l : List Node,
    x ∈ preorderList l ↔ ∃ c ∈ l, x ∈ preorder c := by
  intro l
  induction l with
  | nil => simp [preorderList]
  | cons c cs ih =>
    show x ∈ preorder c ++ preorderList cs ↔ _
    rw [List.mem_append, ih]
    constructor
    · rintro (h | ⟨c2, hc2, hx⟩)
      · exact ⟨c, List.mem_cons_self c cs, h⟩
      · exact ⟨c2, List.mem_cons_of_mem c hc2, hx⟩
    · rintro ⟨c2, hc2, hx⟩
      rcases List.mem_cons.mp hc2 with he | he
      · subst he; exact Or.inl hx
      · exact Or.inr ⟨c2, he, hx⟩

theorem mem_preorder_iff (x n : Node) :
    x ∈ preorder n ↔ x = n ∨ x ∈ preorderList n.children := by
  cases n
  rw [preorder_cons]
  simp [Node.children]

theorem preorder_trans (m t r : Node) (h1 : m ∈ preorder t) (h2 : t ∈ preorder r) :
    m ∈ preorder r := by
  induction r using nodeInd with
  | _ k d f sb eb sp ep cs ih =>
    rcases (mem_preorder_iff t _).mp h2 with he | hc
    · subst he; exact h1
    · rw [mem_preorder_iff]
      refine Or.inr ?_
      rw [mem_preorderList_iff] at hc ⊢
      obtain ⟨c, hcmem, htc⟩ := hc
      exact ⟨c, hcmem, ih c hcmem htc⟩

theorem preorderList_length_ge (c : Node) : ∀ l : List Node, c ∈ l →
    (preorder c).length ≤ (preorderList l).length := by
  intro l
  induction l with
  | nil => intro h; exact absurd h (List.not_mem_nil c)
  | cons a t ih =>
    intro h
    show (preorder c).length ≤ (preorder a ++ preorderList t).length
    rw [List.length_append]
    rcases List.mem_cons.mp h with he | hm
    · subst he; omega
    · have := ih hm; omega

theorem mem_preorder_length_le (m : Node) : ∀ n : Node, m ∈ preorder n →
    (preorder m).length ≤ (preorder n).length := by
  intro n
  induction n using nodeInd with
  | _ k d f sb eb sp ep cs ih =>
    intro h
    rcases (mem_preorder_iff m _).mp h with he | hc
    · subst he; exact le_refl _
    · rw [preorder_cons, List.length_cons]
      simp only [Node.children] at hc
      rw [mem_preorderList_iff] at hc
      obtain ⟨c, hcmem, hmc⟩ := hc
      have h1 := ih c hcmem hmc
      have h2 := preorderList_length_ge c cs hcmem
      omega

theorem mem_children_length_lt (m : Node) (n : Node) (h : m ∈ preorderList n.children) :
    (preorder m).length < (preorder n).length := by
  rw [mem_preorderList_iff] at h
  obtain ⟨c, hcmem, hmc⟩ := h
  have h1 := mem_preorder_length_le m c hmc
  have h2 := preorderList_length_ge c n.children hcmem
  cases n
  rw [preorder_cons, List.length_cons]
  simp only [Node.children] at h2
  omega

theorem not_mem_own_children (n : Node) : n ∉ preorderList n.children := by
  intro h
  exact absurd (mem_children_length_lt n n h) (by omega)

theorem preorder_antisymm (m n : Node) (h1 : m ∈ preorder n) (h2 : n ∈ preorder m) :
    m = n := by
  rcases (mem_preorder_iff m n).mp h1 with he | hc
  · exact he
  · have ha := mem_children_length_lt m n hc
    have hb := mem_preorder_length_le n m h2
    omega


theorem ptLeB_iff (a b : Point) : ptLeB a b = true ↔ ptKey a ≤ ptKey b := by
  unfold ptLeB ptKey
  rw [decide_eq_true_eq, Prod.Lex.le_iff]

theorem ptLtB_iff (a b : Point) : ptLtB a b = true ↔ ptKey a < ptKey b := by
  unfold ptLtB ptKey
  rw [decide_eq_true_eq, Prod.Lex.lt_iff]

theorem ptLeB_of_not_ltB (a b : Point) (h : ¬ ptLtB a b = true) : ptLeB b a = true := by
  rw [ptLtB_iff] at h
  rw [ptLeB_iff]
  exact not_lt.mp h

theorem wfNodeList_mem : ∀ l : List Node, wfNodeList l = true → ∀ c ∈ l, wfNode c = true := by
  intro l
  induction l with
  | nil => intro _ c hc; exact absurd hc (List.not_mem_nil c)
  | cons a t ih =>
    intro h c hc
    have h2 : wfNode a = true ∧ wfNodeList t = true := by
      have hh : (wfNode a && wfNodeList t) = true := h
      exact Bool.and_eq_true_iff.mp hh
    rcases List.mem_cons.mp hc with he | hm
    · subst he; exact h2.1
    · exact ih h2.2 c hm

theorem wfNode_parts (k : String) (d : Bool) (f : Option String) (sb eb : Nat)
    (sp ep : Point) (cs : List Node) (h : wfNode (.mk k d f sb eb sp ep cs) = true) :
    sb < eb ∧ ptLtB sp ep = true ∧ chainOrdered cs = true ∧ wfNodeList cs = true ∧
    (∀ hd, cs.head? = some hd → hd.startByte = sb ∧ hd.startPoint = sp) ∧
    (∀ lst, cs.getLast? = some lst → lst.endByte = eb ∧ lst.endPoint = ep) := by
  unfold wfNode at h
  cases cs with
  | nil =>
    simp only [List.head?_nil, List.getLast?_nil, Bool.and_eq_true, decide_eq_true_eq] at h
    refine ⟨h.1.1.1.1, h.1.1.1.2, h.1.2, h.2, ?_, ?_⟩
    · intro hd hhd; cases hhd
    · intro lst hlst; cases hlst
  | cons c ct =>
    cases hlast : (c :: ct).getLast? with
    | none => exact absurd hlast (by simp)
    | some lst =>
      rw [List.head?_cons, hlast] at h
      simp only [Bool.and_eq_true, decide_eq_true_eq, beq_iff_eq] at h
      obtain ⟨⟨⟨⟨h1, h2⟩, h3⟩, h4⟩, h5⟩ := h
      refine ⟨h1, h2, h4, h5, ?_, ?_⟩
      · intro hd hhd
        rw [List.head?_cons, Option.some.injEq] at hhd
        subst hhd
        exact ⟨h3.1.1.1, h3.1.1.2⟩
      · intro l2 hl2
        injection hl2 with heq
        subst heq
        exact ⟨h3.1.2, h3.2⟩

theorem wf_hereditary (root : Node) (h : wfNode root = true) :
    ∀ m ∈ preorder root, wfNode m = true := by
  induction root using nodeInd with
  | _ k d f sb eb sp ep cs ih =>
    intro m hm
    rcases (mem_preorder_iff m _).mp hm with he | hc
    · subst he; exact h
    · simp only [Node.children] at hc
      rw [mem_preorderList_iff] at hc
      obtain ⟨c, hcmem, hmc⟩ := hc
      have hwc : wfNode c = true :=
        wfNodeList_mem cs (wfNode_parts k d f sb eb sp ep cs h).2.2.2.1 c hcmem
      exact ih c hcmem hwc m hmc

theorem chainOrdered_chain'_byte : ∀ l : List Node, chainOrdered l = true →
    List.Chain' (fun a b => a.endByte ≤ b.startByte) l := by
  intro l
  induction l with
  | nil => intro _; exact List.chain'_nil
  | cons a t ih =>
    intro h
    cases t with
    | nil => exact List.chain'_singleton a
    | cons b t2 =>
      have h2 : ((decide (a.endByte ≤ b.startByte) && ptLeB a.endPoint b.startPoint) &&
          chainOrdered (b :: t2)) = true := h
      simp only [Bool.and_eq_true, decide_eq_true_eq] at h2
      exact List.chain'_cons.mpr ⟨h2.1.1, ih h2.2⟩

theorem chainOrdered_chain'_point : ∀ l : List Node, chainOrdered l = true →
    List.Chain' (fun a b => ptKey a.endPoint ≤ ptKey b.startPoint) l := by
  intro l
  induction l with
  | nil => intro _; exact List.chain'_nil
  | cons a t ih =>
    intro h
    cases t with
    | nil => exact List.chain'_singleton a
    | cons b t2 =>
      have h2 : ((decide (a.endByte ≤ b.startByte) && ptLeB a.endPoint b.startPoint) &&
          chainOrdered (b :: t2)) = true := h
      simp only [Bool.and_eq_true] at h2
      exact List.chain'_cons.mpr ⟨(ptLeB_iff _ _).mp h2.1.2, ih h2.2⟩

theorem chain'_head_bound {g A : Type} [LinearOrder g] (s e : A → g) :
    ∀ (t : List A) (a : A), List.Chain' (fun x y => e x ≤ s y) (a :: t) →
    (∀ x ∈ t, s x < e x) → ∀ b ∈ t, e a ≤ s b := by
  intro t
  induction t with
  | nil => intro a _ _ b hb; exact absurd hb (List.not_mem_nil b)
  | cons c t2 ih =>
    intro a hch hne b hb
    have hac : e a ≤ s c := (List.chain'_cons.mp hch).1
    rcases List.mem_cons.mp hb with he | hm
    · subst he; exact hac
    · have hcb : e c ≤ s b :=
        ih c (List.chain'_cons.mp hch).2
          (fun x hx => hne x (List.mem_cons_of_mem c hx)) b hm
      have hc2 : s c < e c := hne c (List.mem_cons_self c t2)
      exact le_trans hac (le_trans (le_of_lt hc2) hcb)

theorem chain'_pairwise_span {g A : Type} [LinearOrder g] (s e : A → g) :
    ∀ l : List A, List.Chain' (fun a b => e a ≤ s b) l →
    (∀ x ∈ l, s x < e x) →
    List.Pairwise (fun a b => e a ≤ s b) l := by
  intro l
  induction l with
  | nil => intro _ _; exact List.Pairwise.nil
  | cons a t ih =>
    intro hch hne
    refine List.pairwise_cons.mpr ⟨?_, ?_⟩
    · exact chain'_head_bound s e t a hch (fun x hx => hne x (List.mem_cons_of_mem a hx))
    · exact ih ((List.chain'_cons'.mp hch).2) (fun x hx => hne x (List.mem_cons_of_mem a hx))

theorem chain'_last_bound {g A : Type} [LinearOrder g] (s e : A → g) :
    ∀ (l : List A) (lst : A), List.Chain' (fun a b => e a ≤ s b) l →
    (∀ x ∈ l, s x < e x) → l.getLast? = some lst → ∀ c ∈ l, e c ≤ e lst := by
  intro l
  induction l with
  | nil => intro lst _ _ hl; cases hl
  | cons a t ih =>
    intro lst hch hne hl c hc
    cases t with
    | nil =>
      rw [List.getLast?_singleton, Option.some.injEq] at hl
      subst hl
      rcases List.mem_singleton.mp hc with rfl
      exact le_refl _
    | cons b t2 =>
      have hl2 : (b :: t2).getLast? = some lst := by
        rw [List.getLast?_cons_cons] at hl; exact hl
      have hrest : ∀ x ∈ b :: t2, s x < e x := fun x hx => hne x (List.mem_cons_of_mem a hx)
      rcases List.mem_cons.mp hc with he | hm
      · subst he
        have h1 : e c ≤ s b := (List.chain'_cons.mp hch).1
        have h2 : s b < e b := hne b (List.mem_cons_of_mem c (List.mem_cons_self b t2))
        have h3 : e b ≤ e lst :=
          ih lst (List.chain'_cons.mp hch).2 hrest hl2 b (List.mem_cons_self b t2)
        exact le_trans h1 (le_trans (le_of_lt h2) h3)
      · exact ih lst (List.chain'_cons.mp hch).2 hrest hl2 c hm

theorem chain'_containment {g A : Type} [LinearOrder g] (s e : A → g)
    (l : List A) (S E : g)
    (hch : List.Chain' (fun a b => e a ≤ s b) l)
    (hne : ∀ x ∈ l, s x < e x)
    (hhd : ∀ hd, l.head? = some hd → s hd = S)
    (hlst : ∀ lst, l.getLast? = some lst → e lst = E) :
    ∀ c ∈ l, S ≤ s c ∧ e c ≤ E := by
  intro c hc
  cases l with
  | nil => exact absurd hc (List.not_mem_nil c)
  | cons a t =>
    have hS : s a = S := hhd a List.head?_cons
    obtain ⟨lst, hlsteq⟩ : ∃ lst, (a :: t).getLast? = some lst :=
      ⟨(a :: t).getLast (List.cons_ne_nil a t), List.getLast?_eq_getLast _ _⟩
    have hE : e lst = E := hlst lst hlsteq
    constructor
    · rcases List.mem_cons.mp hc with he | hm
      · subst he; exact le_of_eq hS.symm
      · have h1 : e a ≤ s c := chain'_head_bound s e t a hch
          (fun x hx => hne x (List.mem_cons_of_mem a hx)) c hm
        have h2 : s a < e a := hne a (List.mem_cons_self a t)
        exact le_of_lt (lt_of_lt_of_le (hS ▸ h2) h1)
    · exact hE ▸ chain'_last_bound s e (a :: t) lst hch hne hlsteq c hc

theorem mem_preorder_of_child (c m : Node) (hc : c ∈ m.children) : c ∈ preorder m :=
  (mem_preorder_iff c m).mpr (Or.inr ((mem_preorderList_iff c m.children).mpr
    ⟨c, hc, mem_preorder_self c⟩))

theorem wf_spanOk_generic {g : Type} [LinearOrder g] (s e : Node → g)
    (hloc : ∀ m : Node, wfNode m = true →
      s m < e m ∧
      List.Chain' (fun a b => e a ≤ s b) m.children ∧
      (∀ hd, m.children.head? = some hd → s hd = s m) ∧
      (∀ lst, m.children.getLast? = some lst → e lst = e m))
    (root : Node) (h : wfNode root = true) : SpanOk s e root := by
  have hw := wf_hereditary root h
  refine ⟨?_, ?_, ?_, ?_⟩
  · intro m hm; exact (hloc m (hw m hm)).1
  · intro m hm; exact (hloc m (hw m hm)).2.1
  · intro m hm c hc
    have hcw : ∀ x ∈ m.children, s x < e x := by
      intro x hx
      have hxp : x ∈ preorder root :=
        preorder_trans x m root (mem_preorder_of_child x m hx) hm
      exact (hloc x (hw x hxp)).1
    exact chain'_containment s e m.children (s m) (e m)
      (hloc m (hw m hm)).2.1 hcw (hloc m (hw m hm)).2.2.1 (hloc m (hw m hm)).2.2.2 c hc
  · intro m hm c hc; exact (hloc m (hw m hm)).2.2.2 c hc

theorem wf_spanOk_byte (root : Node) (h : wfNode root = true) :
    SpanOk Node.startByte Node.endByte root := by
  refine wf_spanOk_generic _ _ ?_ root h
  intro m hm
  cases m with
  | mk k d f sb eb sp ep cs =>
    obtain ⟨h1, _, h3, _, h5, h6⟩ := wfNode_parts k d f sb eb sp ep cs hm
    exact ⟨h1, chainOrdered_chain'_byte cs h3,
      fun hd hhd => (h5 hd hhd).1, fun lst hlst => (h6 lst hlst).1⟩

theorem wf_spanOk_point (root : Node) (h : wfNode root = true) :
    SpanOk (fun n => ptKey n.startPoint) (fun n => ptKey n.endPoint) root := by
  refine wf_spanOk_generic _ _ ?_ root h
  intro m hm
  cases m with
  | mk k d f sb eb sp ep cs =>
    obtain ⟨_, h2, h3, _, h5, h6⟩ := wfNode_parts k d f sb eb sp ep cs hm
    refine ⟨(ptLtB_iff _ _).mp h2, chainOrdered_chain'_point cs h3, ?_, ?_⟩
    · intro hd hhd; exact congrArg ptKey (h5 hd hhd).2
    · intro lst hlst; exact congrArg ptKey (h6 lst hlst).2

theorem spanOk_restrict {g : Type} [LinearOrder g] (s e : Node → g)
    (root t : Node) (h : SpanOk s e root) (ht : t ∈ preorder root) : SpanOk s e t := by
  obtain ⟨h1, h2, h3, h4⟩ := h
  refine ⟨?_, ?_, ?_, ?_⟩
  · intro m hm; exact h1 m (preorder_trans m t root hm ht)
  · intro m hm; exact h2 m (preorder_trans m t root hm ht)
  · intro m hm; exact h3 m (preorder_trans m t root hm ht)
  · intro m hm; exact h4 m (preorder_trans m t root hm ht)

theorem span_bounds {g : Type} [LinearOrder g] (s e : Node → g) :
    ∀ root : Node, SpanOk s e root → ∀ m ∈ preorder root, s root ≤ s m ∧ e m ≤ e root := by
  intro root
  induction root using nodeInd with
  | _ k d f sb eb sp ep cs ih =>
    intro h m hm
    rcases (mem_preorder_iff m _).mp hm with he | hc
    · subst he; exact ⟨le_refl _, le_refl _⟩
    · simp only [Node.children] at hc
      rw [mem_preorderList_iff] at hc
      obtain ⟨c, hcmem, hmc⟩ := hc
      have hcont := h.2.2.1 (Node.mk k d f sb eb sp ep cs)
        (mem_preorder_self _) c (by simpa [Node.children] using hcmem)
      have hcsub : SpanOk s e c := spanOk_restrict s e _ c h
        (mem_preorder_of_child c _ (by simpa [Node.children] using hcmem))
      have hlower := ih c hcmem hcsub m hmc
      exact ⟨le_trans hcont.1 hlower.1, le_trans hlower.2 hcont.2⟩

theorem pairwise_preorderList {g : Type} [LinearOrder g] (s e : Node → g) :
    ∀ cs : List Node,
    (∀ c ∈ cs, List.Pairwise (fun a b => b ∈ preorderList a.children ∨ e a ≤ s b) (preorder c)) →
    List.Chain' (fun a b => e a ≤ s b) cs →
    (∀ c ∈ cs, s c < e c) →
    (∀ c ∈ cs, ∀ m ∈ preorder c, s c ≤ s m ∧ e m ≤ e c) →
    List.Pairwise (fun a b => b ∈ preorderList a.children ∨ e a ≤ s b) (preorderList cs) := by
  intro cs
  induction cs with
  | nil => intro _ _ _ _; exact List.Pairwise.nil
  | cons c ct ihl =>
    intro hpw hch hne hbnd
    have hunf : preorderList (c :: ct) = preorder c ++ preorderList ct := rfl
    rw [hunf]
    rw [List.pairwise_append]
    refine ⟨hpw c (List.mem_cons_self c ct), ?_, ?_⟩
    · exact ihl (fun x hx => hpw x (List.mem_cons_of_mem c hx))
        (List.chain'_cons'.mp hch).2
        (fun x hx => hne x (List.mem_cons_of_mem c hx))
        (fun x hx => hbnd x (List.mem_cons_of_mem c hx))
    · intro a ha b hb
      rw [mem_preorderList_iff] at hb
      obtain ⟨c2, hc2mem, hbc2⟩ := hb
      have h1 : e a ≤ e c := (hbnd c (List.mem_cons_self c ct) a ha).2
      have h2 : e c ≤ s c2 := chain'_head_bound s e ct c hch
        (fun x hx => hne x (List.mem_cons_of_mem c hx)) c2 hc2mem
      have h3 : s c2 ≤ s b := (hbnd c2 (List.mem_cons_of_mem c hc2mem) b hbc2).1
      exact Or.inr (le_trans h1 (le_trans h2 h3))

theorem preorder_pairwise {g : Type} [LinearOrder g] (s e : Node → g) :
    ∀ root : Node, SpanOk s e root →
    List.Pairwise (fun a b => b ∈ preorderList a.children ∨ e a ≤ s b) (preorder root) := by
  intro root
  induction root using nodeInd with
  | _ k d f sb eb sp ep cs ih =>
    intro h
    rw [preorder_cons]
    refine List.pairwise_cons.mpr ⟨?_, ?_⟩
    · intro b hb
      exact Or.inl (by simpa [Node.children] using hb)
    · refine pairwise_preorderList s e cs ?_ ?_ ?_ ?_
      · intro c hc
        exact ih c hc (spanOk_restrict s e _ c h
          (mem_preorder_of_child c _ (by simpa [Node.children] using hc)))
      · have := h.2.1 (Node.mk k d f sb eb sp ep cs) (mem_preorder_self _)
        simpa [Node.children] using this
      · intro c hc
        exact h.1 c (mem_preorder_of_child c _ (by simpa [Node.children] using hc))
      · intro c hc
        exact span_bounds s e c (spanOk_restrict s e _ c h
          (mem_preorder_of_child c _ (by simpa [Node.children] using hc)))

theorem flatten_fold_suffix (cfg : SlicerConfig) (refs : Finset Node) :
    ∀ (l acc : List Node), ∃ suf : List Node,
      l.foldl (fun acc stmt =>
        if statementKind cfg stmt ∧ stmt ∉ refs ∧ ¬ ∃ d ∈ acc, stmt ∈ preorderList d.children
        then acc ++ [stmt] else acc) acc = acc ++ suf ∧ suf.Sublist l := by
  intro l
  induction l with
  | nil => intro acc; exact ⟨[], by simp⟩
  | cons x t ih =>
    intro acc
    rw [List.foldl_cons]
    by_cases hc : statementKind cfg x ∧ x ∉ refs ∧ ¬ ∃ d ∈ acc, x ∈ preorderList d.children
    · rw [if_pos hc]
      obtain ⟨suf, hsuf, hsub⟩ := ih (acc ++ [x])
      exact ⟨x :: suf, by rw [hsuf]; simp, List.Sublist.cons₂ x hsub⟩
    · rw [if_neg hc]
      obtain ⟨suf, hsuf, hsub⟩ := ih acc
      exact ⟨suf, hsuf, List.Sublist.cons x hsub⟩

theorem flatten_fold_pairwise (cfg : SlicerConfig) (refs : Finset Node) :
    ∀ (l acc : List Node),
      List.Pairwise (fun d b => ¬ b ∈ preorderList d.children) acc →
      List.Pairwise (fun d b => ¬ b ∈ preorderList d.children)
        (l.foldl (fun acc stmt =>
          if statementKind cfg stmt ∧ stmt ∉ refs ∧ ¬ ∃ d ∈ acc, stmt ∈ preorderList d.children
          then acc ++ [stmt] else acc) acc) := by
  intro l
  induction l with
  | nil => intro acc h; exact h
  | cons x t ih =>
    intro acc h
    rw [List.foldl_cons]
    by_cases hc : statementKind cfg x ∧ x ∉ refs ∧ ¬ ∃ d ∈ acc, x ∈ preorderList d.children
    · rw [if_pos hc]
      refine ih (acc ++ [x]) ?_
      rw [List.pairwise_append]
      refine ⟨h, List.pairwise_singleton _ x, ?_⟩
      intro d hd b hb
      rw [List.mem_singleton] at hb
      subst hb
      exact fun hmem => hc.2.2 ⟨d, hd, hmem⟩
    · rw [if_neg hc]
      exact ih acc h

theorem pathToList_some : ∀ (t : Node) (cs : List Node) (p : List Node),
    pathToList t cs = some p → ∃ c ∈ cs, pathTo t c = some p := by
  intro t cs
  induction cs with
  | nil => intro p h; cases h
  | cons c ct ih =>
    intro p h
    unfold pathToList at h
    cases hc : pathTo t c with
    | some q =>
      rw [hc] at h
      injection h with he
      exact ⟨c, List.mem_cons_self c ct, he ▸ hc⟩
    | none =>
      rw [hc] at h
      obtain ⟨c2, hc2, hp⟩ := ih p h
      exact ⟨c2, List.mem_cons_of_mem c hc2, hp⟩

theorem pathTo_mem (t : Node) : ∀ (root : Node) (p : List Node),
    pathTo t root = some p → ∀ x ∈ p, x ∈ preorder root := by
  intro root
  induction root using nodeInd with
  | _ k d f sb eb sp ep cs ih =>
    intro p h x hx
    unfold pathTo at h
    by_cases he : Node.mk k d f sb eb sp ep cs = t
    · rw [if_pos he] at h
      injection h with hp
      subst hp
      rcases List.mem_singleton.mp hx with rfl
      exact mem_preorder_self _
    · rw [if_neg he] at h
      cases hpl : pathToList t cs with
      | none => rw [hpl] at h; cases h
      | some p0 =>
        rw [hpl, Option.map_eq_some'] at h
        obtain ⟨q, hq, hpq⟩ := h
        injection hq with hq2
        subst hq2
        subst hpq
        rcases List.mem_cons.mp hx with rfl | hx0
        · exact mem_preorder_self _
        · obtain ⟨c, hcmem, hpc⟩ := pathToList_some t cs p0 hpl
          have := ih c hcmem p0 hpc x hx0
          exact (mem_preorder_iff x _).mpr (Or.inr (by
            simp only [Node.children]
            exact (mem_preorderList_iff x cs).mpr ⟨c, hcmem, this⟩))

theorem scopeClimb_mem (cfg : SlicerConfig) (root t tf : Node)
    (h : scopeClimb cfg root t = some tf) : tf ∈ preorder root := by
  unfold scopeClimb at h
  cases hp : pathTo t root with
  | none => rw [hp] at h; cases h
  | some path =>
    rw [hp, Option.some_bind] at h
    have hmem : tf ∈ path.reverse := List.mem_of_find?_eq_some h
    exact pathTo_mem t root path hp tf (List.mem_reverse.mp hmem)

theorem coalesceRun_spec (root : Node) : ∀ (l : List Node) (e : Node),
    ∃ consumed : List Node,
      l = consumed ++ (coalesceRun root e l).2 ∧ (coalesceRun root e l).1 ∈ e :: consumed := by
  intro l
  induction l with
  | nil => intro e; exact ⟨[], rfl, List.mem_singleton.mpr rfl⟩
  | cons nxt rest ih =>
    intro e
    unfold coalesceRun
    cases hh : (afterSubtree e root).head? with
    | some b =>
      dsimp only
      by_cases hb : b = nxt
      · rw [if_pos hb]
        obtain ⟨c2, hc2, hm⟩ := ih nxt
        exact ⟨nxt :: c2, by rw [List.cons_append, ← hc2],
          List.mem_cons_of_mem e hm⟩
      · rw [if_neg hb]
        exact ⟨[], rfl, List.mem_singleton.mpr rfl⟩
    | none =>
      dsimp only
      exact ⟨[], rfl, List.mem_singleton.mpr rfl⟩

theorem coalesceRangesFuel_nil (root : Node) : ∀ fuel, coalesceRangesFuel root fuel [] = [] := by
  intro fuel
  cases fuel with
  | zero => rfl
  | succ n => rfl

theorem coalesceRangesFuel_spec (root : Node) : ∀ (fuel : Nat) (ns : List Node),
    ns.length ≤ fuel →
    List.Pairwise (fun a b => a.endByte ≤ b.startByte) ns →
    (∀ x ∈ ns, x.startByte < x.endByte) →
    (∀ x ∈ ns, x.endByte ≤ root.endByte) →
    List.Chain' (fun r1 r2 => r1.end_byte ≤ r2.start_byte) (coalesceRangesFuel root fuel ns) ∧
    (∀ r ∈ coalesceRangesFuel root fuel ns,
      r.start_byte < r.end_byte ∧ r.end_byte ≤ root.endByte) ∧
    (∀ r, (coalesceRangesFuel root fuel ns).head? = some r →
      ∃ n2 rest2, ns = n2 :: rest2 ∧ r.start_byte = n2.startByte) := by
  intro fuel
  induction fuel with
  | zero =>
    intro ns _ _ _ _
    have h0 : coalesceRangesFuel root 0 ns = [] := by cases ns <;> rfl
    rw [h0]
    refine ⟨List.chain'_nil, ?_, ?_⟩
    · intro r hr; exact absurd hr (List.not_mem_nil r)
    · intro r hr; exact Option.noConfusion hr
  | succ fuel ih =>
    intro ns hlen hpw hne hbd
    cases ns with
    | nil =>
      have h0 : coalesceRangesFuel root (fuel + 1) [] = [] := rfl
      rw [h0]
      refine ⟨List.chain'_nil, ?_, ?_⟩
      · intro r hr; exact absurd hr (List.not_mem_nil r)
      · intro r hr; exact Option.noConfusion hr
    | cons n rest =>
      set er := coalesceRun root n rest with her
      obtain ⟨consumed, hcons, hmem⟩ := coalesceRun_spec root rest n
      rw [← her] at hcons hmem
      have hunf : coalesceRangesFuel root (fuel + 1) (n :: rest) =
          ⟨n.startByte, n.startPoint, er.1.endByte, er.1.endPoint⟩ ::
          coalesceRangesFuel root fuel er.2 := rfl
      rw [hunf]
      have hsub2 : er.2.Sublist (n :: rest) := by
        rw [hcons]
        exact List.Sublist.trans (List.sublist_append_right consumed _)
          (List.sublist_cons_self n (consumed ++ er.2))
      have hlen2 : er.2.length ≤ fuel := by
        have h1 : rest.length = consumed.length + er.2.length := by
          conv_lhs => rw [hcons]
          rw [List.length_append]
        rw [List.length_cons] at hlen
        omega
      have hpw2 := hpw.sublist hsub2
      have hne2 : ∀ x ∈ er.2, x.startByte < x.endByte :=
        fun x hx => hne x (hsub2.mem hx)
      have hbd2 : ∀ x ∈ er.2, x.endByte ≤ root.endByte :=
        fun x hx => hbd x (hsub2.mem hx)
      obtain ⟨ihc, ihel, ihhd⟩ := ih er.2 hlen2 hpw2 hne2 hbd2
      have hpair : ∀ x ∈ er.2, er.1.endByte ≤ x.startByte := by
        intro x hx
        rcases List.mem_cons.mp hmem with he | hm
        · rw [he]
          exact (List.pairwise_cons.mp hpw).1 x (by rw [hcons]; exact List.mem_append_right _ hx)
        · have hrest : List.Pairwise (fun a b => a.endByte ≤ b.startByte) rest :=
            (List.pairwise_cons.mp hpw).2
          rw [hcons, List.pairwise_append] at hrest
          exact hrest.2.2 _ hm x hx
      have hrun_mem : er.1 ∈ n :: rest := by
        rcases List.mem_cons.mp hmem with he | hm
        · rw [he]; exact List.mem_cons_self n rest
        · rw [hcons]
          exact List.mem_cons_of_mem n (List.mem_append_left _ hm)
      have hstart_end : n.startByte < er.1.endByte := by
        rcases List.mem_cons.mp hmem with he | hm
        · rw [he]; exact hne n (List.mem_cons_self n rest)
        · have h1 : n.endByte ≤ er.1.startByte :=
            (List.pairwise_cons.mp hpw).1 _ (by
              rw [hcons]; exact List.mem_append_left _ hm)
          have h2 : n.startByte < n.endByte := hne n (List.mem_cons_self n rest)
          have h3 : er.1.startByte < er.1.endByte := hne _ hrun_mem
          omega
      refine ⟨?_, ?_, ?_⟩
      · rw [List.chain'_cons']
        refine ⟨?_, ihc⟩
        intro r2 hr2
        obtain ⟨n2, rest2, hns2, hs2⟩ := ihhd r2 hr2
        have hlink : er.1.endByte ≤ n2.startByte :=
          hpair n2 (by rw [hns2]; exact List.mem_cons_self n2 rest2)
        rw [hs2]
        exact hlink
      · intro r hr
        rcases List.mem_cons.mp hr with he | hm
        · subst he
          exact ⟨hstart_end, hbd _ hrun_mem⟩
        · exact ihel r hm
      · intro r hr
        rw [List.head?_cons, Option.some.injEq] at hr
        subst hr
        exact ⟨n, rest, rfl, rfl⟩

/-- C2: for every source, target point, and direction on which `slice`
succeeds on a well-formed parse tree spanning the source, the returned
ranges are pairwise non-overlapping, sorted strictly ascending by start
byte, and each range's start and end bytes lie within the byte length of
the source content. -/
theorem c2_slice_ranges (cfg : SlicerConfig) (src : List Char) (root : Node)
    (p : Point) (dir : SliceDirection) (rs : List TSRange)
    (hwf : wfNode root = true)
    (hlen : root.endByte ≤ src.length)
    (hok : Slicer.slice cfg src root p dir = some (.ok rs)) :
    List.Pairwise
      (fun r1 r2 => r1.end_byte ≤ r2.start_byte ∧ r1.start_byte < r2.start_byte) rs ∧
    ∀ r ∈ rs, r.start_byte < r.end_byte ∧ r.end_byte ≤ src.length := by
  unfold Slicer.slice at hok
  cases hna : nameAtPoint cfg src root p with
  | none =>
    rw [hna] at hok
    injection hok with hok2
    exact Except.noConfusion hok2
  | some tn =>
    rw [hna] at hok
    dsimp only at hok
    cases hsc : scopeClimb cfg root tn.node with
    | none => rw [hsc] at hok; exact Option.noConfusion hok
    | some tf =>
      rw [hsc] at hok
      dsimp only at hok
      injection hok with hok2
      injection hok2 with hok3
      -- hok3 : coalesce_ranges root (flatten_unreferenced ...) = rs
      have htf : tf ∈ preorder root := scopeClimb_mem cfg root tn.node tf hsc
      have hsp : SpanOk Node.startByte Node.endByte root := wf_spanOk_byte root hwf
      have hsptf : SpanOk Node.startByte Node.endByte tf :=
        spanOk_restrict _ _ root tf hsp htf
      obtain ⟨ns, hns, hsubns⟩ := flatten_fold_suffix cfg
        (visitRefs cfg src (propagate_targets cfg src tf {tn.components} dir) tf ∅)
        (preorder tf) []
      rw [List.nil_append] at hns
      have hflat : flatten_unreferenced cfg src tf
          (propagate_targets cfg src tf {tn.components} dir) = ns := hns
      have hpw_guard := flatten_fold_pairwise cfg
        (visitRefs cfg src (propagate_targets cfg src tf {tn.components} dir) tf ∅)
        (preorder tf) [] List.Pairwise.nil
      rw [hns] at hpw_guard
      have hbase := preorder_pairwise Node.startByte Node.endByte tf hsptf
      have hpw_or := hbase.sublist hsubns
      have hpwns : List.Pairwise (fun a b => a.endByte ≤ b.startByte) ns := by
        refine (hpw_or.and hpw_guard).imp ?_
        intro a b hab
        rcases hab.1 with hmem | hle
        · exact absurd hmem hab.2
        · exact hle
      have hmemroot : ∀ x ∈ ns, x ∈ preorder root :=
        fun x hx => preorder_trans x tf root (hsubns.mem hx) htf
      have hne : ∀ x ∈ ns, x.startByte < x.endByte :=
        fun x hx => hsp.1 x (hmemroot x hx)
      have hbd : ∀ x ∈ ns, x.endByte ≤ root.endByte :=
        fun x hx => (span_bounds _ _ root hsp x (hmemroot x hx)).2
      obtain ⟨hc, hel, _⟩ :=
        coalesceRangesFuel_spec root ns.length ns (le_refl _) hpwns hne hbd
      have hco : coalesce_ranges root ns = coalesceRangesFuel root ns.length ns := rfl
      have hrs : rs = coalesceRangesFuel root ns.length ns := by
        rw [← hok3, hflat, hco]
      subst hrs
      refine ⟨?_, ?_⟩
      · have hpwr := chain'_pairwise_span (fun r : TSRange => r.start_byte)
          (fun r : TSRange => r.end_byte) _ hc (fun x hx => (hel x hx).1)
        refine hpwr.imp_of_mem ?_
        intro r1 r2 h1 h2 h12
        exact ⟨h12, lt_of_lt_of_le (hel r1 h1).1 h12⟩
      · intro r hr
        exact ⟨(hel r hr).1, le_trans (hel r hr).2 hlen⟩

theorem c2_witness :
    wfNode tree1 = true ∧ tree1.endByte ≤ src1.length ∧
    Slicer.slice cConfig src1 tree1 p1 .Backward =
      some (.ok [⟨27, ⟨3, 0⟩, 35, ⟨3, 8⟩⟩]) ∧
    (List.Pairwise
      (fun r1 r2 => r1.end_byte ≤ r2.start_byte ∧ r1.start_byte < r2.start_byte)
      [(⟨27, ⟨3, 0⟩, 35, ⟨3, 8⟩⟩ : TSRange)] ∧
     ∀ r ∈ [(⟨27, ⟨3, 0⟩, 35, ⟨3, 8⟩⟩ : TSRange)],
       r.start_byte < r.end_byte ∧ r.end_byte ≤ src1.length) :=
  ⟨by decide, by decide, by decide,
   c2_slice_ranges cConfig src1 tree1 p1 .Backward _ (by decide) (by decide) (by decide)⟩

theorem preorder_nodup {g : Type} [LinearOrder g] (s e : Node → g)
    (root : Node) (h : SpanOk s e root) : (preorder root).Nodup := by
  refine (preorder_pairwise s e root h).imp_of_mem ?_
  intro a b ha _ hR heq
  subst heq
  rcases hR with hmem | hle
  · exact not_mem_own_children a hmem
  · exact absurd (h.1 a ha) (not_lt.mpr hle)

theorem nodup_mid_eq {α : Type} : ∀ (A : List α) (B C D : List α) (x : α),
    A ++ x :: B = C ++ x :: D → (A ++ x :: B).Nodup → A = C ∧ B = D := by
  intro A
  induction A with
  | nil =>
    intro B C D x h hnd
    cases C with
    | nil =>
      rw [List.nil_append, List.nil_append] at h
      injection h with _ h2
      exact ⟨rfl, h2⟩
    | cons c C2 =>
      rw [List.nil_append, List.cons_append] at h
      injection h with h1 h2
      rw [List.nil_append] at hnd
      exfalso
      refine (List.nodup_cons.mp hnd).1 ?_
      rw [h2]
      exact List.mem_append_right C2 (h1 ▸ List.mem_cons_self x D)
  | cons a A2 ih =>
    intro B C D x h hnd
    cases C with
    | nil =>
      rw [List.nil_append] at h
      rw [List.cons_append] at h
      injection h with h1 h2
      rw [List.cons_append] at hnd
      exfalso
      refine (List.nodup_cons.mp hnd).1 ?_
      subst h1
      exact List.mem_append_right A2 (List.mem_cons_self a B)
    | cons c C2 =>
      rw [List.cons_append, List.cons_append] at h
      injection h with h1 h2
      rw [List.cons_append] at hnd
      obtain ⟨hA, hB⟩ := ih B C2 D x h2 (List.nodup_cons.mp hnd).2
      exact ⟨by rw [h1, hA], hB⟩

theorem pairwise_of_mem_ne {α : Type} {R : α → α → Prop} :
    ∀ {l : List α}, List.Pairwise R l →
    ∀ {a b : α}, a ∈ l → b ∈ l → a ≠ b → R a b ∨ R b a := by
  intro l
  induction l with
  | nil => intro _ a b ha; exact absurd ha (List.not_mem_nil a)
  | cons c t ih =>
    intro hpw a b ha hb hne
    obtain ⟨hhead, htail⟩ := List.pairwise_cons.mp hpw
    rcases List.mem_cons.mp ha with rfl | hat
    · rcases List.mem_cons.mp hb with rfl | hbt
      · exact absurd rfl hne
      · exact Or.inl (hhead b hbt)
    · rcases List.mem_cons.mp hb with rfl | hbt
      · exact Or.inr (hhead a hat)
      · exact ih htail hat hbt hne

theorem pathTo_head (t : Node) : ∀ (n : Node) (p : List Node),
    pathTo t n = some p → ∃ p1, p = n :: p1 := by
  intro n p h
  cases n with
  | mk k d f sb eb sp ep cs =>
    unfold pathTo at h
    by_cases he : Node.mk k d f sb eb sp ep cs = t
    · rw [if_pos he] at h
      injection h with h2
      exact ⟨[], h2.symm⟩
    · rw [if_neg he, Option.map_eq_some'] at h
      obtain ⟨q, _, hq⟩ := h
      exact ⟨q, hq.symm⟩

theorem pathTo_contains (t : Node) : ∀ (root : Node) (p : List Node),
    pathTo t root = some p → ∀ x ∈ p, t ∈ preorder x := by
  intro root
  induction root using nodeInd with
  | _ k d f sb eb sp ep cs ih =>
    intro p h x hx
    unfold pathTo at h
    by_cases he : Node.mk k d f sb eb sp ep cs = t
    · rw [if_pos he] at h
      injection h with h2
      subst h2
      rcases List.mem_singleton.mp hx with rfl
      rw [he]
      exact mem_preorder_self t
    · rw [if_neg he, Option.map_eq_some'] at h
      obtain ⟨q, hq, hpq⟩ := h
      subst hpq
      obtain ⟨c, hcmem, hpc⟩ := pathToList_some t cs q hq
      rcases List.mem_cons.mp hx with rfl | hxq
      · obtain ⟨p1, hp1⟩ := pathTo_head t c q hpc
        have htc : t ∈ preorder c := ih c hcmem q hpc c (hp1 ▸ List.mem_cons_self c p1)
        exact (mem_preorder_iff t _).mpr (Or.inr (by
          simp only [Node.children]
          exact (mem_preorderList_iff t cs).mpr ⟨c, hcmem, htc⟩))
      · exact ih c hcmem q hpc x hxq

theorem afterSubtree_decomp (t : Node) : ∀ root : Node, t ∈ preorder root →
    ∃ pre, preorder root = pre ++ preorder t ++ afterSubtree t root := by
  intro root
  induction root using nodeInd with
  | _ k d f sb eb sp ep cs ih =>
    intro ht
    by_cases he : Node.mk k d f sb eb sp ep cs = t
    · refine ⟨[], ?_⟩
      have ha : afterSubtree t (Node.mk k d f sb eb sp ep cs) = [] := by
        unfold afterSubtree; rw [if_pos he]
      rw [ha, List.nil_append, List.append_nil, he]
    · have hc : t ∈ preorderList cs := by
        rcases (mem_preorder_iff t _).mp ht with heq | hmem
        · exact absurd heq.symm he
        · simpa [Node.children] using hmem
      have ha : afterSubtree t (Node.mk k d f sb eb sp ep cs) = afterSubtreeList t cs := by
        unfold afterSubtree; rw [if_neg he]
      rw [ha]
      -- list-level decomposition
      have hlist : ∀ cl : List Node, (∀ c ∈ cl, ∀ ht2 : t ∈ preorder c,
            ∃ pre, preorder c = pre ++ preorder t ++ afterSubtree t c) →
          t ∈ preorderList cl →
          ∃ pre, preorderList cl = pre ++ preorder t ++ afterSubtreeList t cl := by
        intro cl
        induction cl with
        | nil => intro _ hmem; exact absurd hmem (by rw [mem_preorderList_iff]; rintro ⟨c, hc, _⟩; exact (List.not_mem_nil c) hc)
        | cons c ct ihl =>
          intro hih hmem
          by_cases h1 : t ∈ preorder c
          · obtain ⟨pre1, hpre1⟩ := hih c (List.mem_cons_self c ct) h1
            refine ⟨pre1, ?_⟩
            have hunf : preorderList (c :: ct) = preorder c ++ preorderList ct := rfl
            have hunf2 : afterSubtreeList t (c :: ct) =
                afterSubtree t c ++ preorderList ct := by
              rw [show afterSubtreeList t (c :: ct) = if t ∈ preorder c
                then afterSubtree t c ++ preorderList ct
                else afterSubtreeList t ct from rfl]
              rw [if_pos h1]
            rw [hunf, hunf2, hpre1]
            simp [List.append_assoc]
          · have hmem2 : t ∈ preorderList ct := by
              rw [mem_preorderList_iff] at hmem ⊢
              obtain ⟨c2, hc2, hm2⟩ := hmem
              rcases List.mem_cons.mp hc2 with rfl | hc2t
              · exact absurd hm2 h1
              · exact ⟨c2, hc2t, hm2⟩
            obtain ⟨pre2, hpre2⟩ := ihl
              (fun c2 hc2 => hih c2 (List.mem_cons_of_mem c hc2)) hmem2
            refine ⟨preorder c ++ pre2, ?_⟩
            have hunf : preorderList (c :: ct) = preorder c ++ preorderList ct := rfl
            have hunf2 : afterSubtreeList t (c :: ct) = afterSubtreeList t ct := by
              rw [show afterSubtreeList t (c :: ct) = if t ∈ preorder c
                then afterSubtree t c ++ preorderList ct
                else afterSubtreeList t ct from rfl]
              rw [if_neg h1]
            rw [hunf, hunf2, hpre2]
            simp [List.append_assoc]
      obtain ⟨pre, hpre⟩ := hlist cs (fun c hc => ih c hc) hc
      refine ⟨Node.mk k d f sb eb sp ep cs :: pre, ?_⟩
      rw [preorder_cons]
      rw [hpre]
      simp [List.append_assoc]

theorem containing_child_unique {g : Type} [LinearOrder g] (s e : Node → g)
    (X : Node) (hsp : SpanOk s e X) (B c c' : Node)
    (hc : c ∈ X.children) (hc' : c' ∈ X.children)
    (hB : B ∈ preorder c) (hB' : B ∈ preorder c') : c = c' := by
  by_contra hne
  have hch := hsp.2.1 X (mem_preorder_self X)
  have hnempty : ∀ x ∈ X.children, s x < e x :=
    fun x hx => hsp.1 x (mem_preorder_of_child x X hx)
  have hpw := chain'_pairwise_span s e X.children hch hnempty
  have hcp : c ∈ preorder X := mem_preorder_of_child c X hc
  have hcp' : c' ∈ preorder X := mem_preorder_of_child c' X hc'
  have hbc : s c ≤ s B ∧ e B ≤ e c :=
    span_bounds s e c (spanOk_restrict s e X c hsp hcp) B hB
  have hbc' : s c' ≤ s B ∧ e B ≤ e c' :=
    span_bounds s e c' (spanOk_restrict s e X c' hsp hcp') B hB'
  have hBne : s B < e B :=
    hsp.1 B (preorder_trans B c X hB hcp)
  rcases pairwise_of_mem_ne hpw hc hc' hne with h1 | h2
  · exact absurd hBne (not_lt.mpr (le_trans hbc.2 (le_trans h1 hbc'.1)))
  · exact absurd hBne (not_lt.mpr (le_trans hbc'.2 (le_trans h2 hbc.1)))

theorem visitRefs_mono (cfg : SlicerConfig) (src : List Char) (tns : Finset (List String)) :
    ∀ n : Node, ∀ refs, refs ⊆ visitRefs cfg src tns n refs := by
  intro n
  induction n using nodeInd with
  | _ k d f sb eb sp ep cs ih =>
    intro refs
    have hlist : ∀ ct : List Node, (∀ c ∈ ct, ∀ r, r ⊆ visitRefs cfg src tns c r) →
        ∀ r, r ⊆ visitRefsList cfg src tns ct r := by
      intro ct
      induction ct with
      | nil => intro _ r; exact Finset.Subset.refl r
      | cons c0 ct2 ihl =>
        intro hall r
        exact (hall c0 (List.mem_cons_self c0 ct2) r).trans
          (ihl (fun c hc => hall c (List.mem_cons_of_mem c0 hc)) _)
    have hv : visitRefs cfg src tns (Node.mk k d f sb eb sp ep cs) refs =
        if cfg.name_types.contains (Node.mk k d f sb eb sp ep cs).kind then
          if ∃ t ∈ tns, affects t (nameComponents cfg src (Node.mk k d f sb eb sp ep cs))
          then insert (Node.mk k d f sb eb sp ep cs) refs else refs
        else
          if cs.any (fun c => decide (c ∈ visitRefsList cfg src tns cs refs))
          then insert (Node.mk k d f sb eb sp ep cs) (visitRefsList cfg src tns cs refs)
          else visitRefsList cfg src tns cs refs := rfl
    rw [hv]
    split
    · split
      · exact Finset.subset_insert _ refs
      · exact Finset.Subset.refl refs
    · split
      · exact (hlist cs ih refs).trans (Finset.subset_insert _ _)
      · exact hlist cs ih refs

theorem visitRefsList_mono (cfg : SlicerConfig) (src : List Char) (tns : Finset (List String)) :
    ∀ ct : List Node, ∀ refs, refs ⊆ visitRefsList cfg src tns ct refs := by
  intro ct
  induction ct with
  | nil => intro r; exact Finset.Subset.refl r
  | cons c0 ct2 ihl =>
    intro r
    exact (visitRefs_mono cfg src tns c0 r).trans (ihl _)

theorem visitRefs_marks (cfg : SlicerConfig) (src : List Char) (tns : Finset (List String))
    (B : Node)
    (hkB : cfg.name_types.contains B.kind = true)
    (haff : ∃ t ∈ tns, affects t (nameComponents cfg src B)) :
    ∀ X : Node, SpanOk Node.startByte Node.endByte X →
    (∀ A ∈ preorder X, B ∈ preorder A → A ≠ B → ¬ cfg.name_types.contains A.kind = true) →
    B ∈ preorder X →
    ∀ refs0 A, A ∈ preorder X → B ∈ preorder A → A ∈ visitRefs cfg src tns X refs0 := by
  intro X
  induction X using nodeInd with
  | _ k d f sb eb sp ep cs ih =>
    intro hsp hanc hBX refs0 A hA hBA
    have hv : visitRefs cfg src tns (Node.mk k d f sb eb sp ep cs) refs0 =
        if cfg.name_types.contains (Node.mk k d f sb eb sp ep cs).kind then
          if ∃ t ∈ tns, affects t (nameComponents cfg src (Node.mk k d f sb eb sp ep cs))
          then insert (Node.mk k d f sb eb sp ep cs) refs0 else refs0
        else
          if cs.any (fun c => decide (c ∈ visitRefsList cfg src tns cs refs0))
          then insert (Node.mk k d f sb eb sp ep cs) (visitRefsList cfg src tns cs refs0)
          else visitRefsList cfg src tns cs refs0 := rfl
    rw [hv]
    by_cases hk : cfg.name_types.contains (Node.mk k d f sb eb sp ep cs).kind = true
    · have hXB : Node.mk k d f sb eb sp ep cs = B := by
        by_contra hne
        exact hanc (Node.mk k d f sb eb sp ep cs) (mem_preorder_self _) hBX hne hk
      have hAB : A = B := preorder_antisymm A B (hXB ▸ hA) hBA
      rw [if_pos hk, if_pos (show ∃ t ∈ tns,
        affects t (nameComponents cfg src (Node.mk k d f sb eb sp ep cs)) from by
          rw [hXB]; exact haff)]
      rw [hAB, ← hXB]
      exact Finset.mem_insert_self _ _
    · have hXneB : Node.mk k d f sb eb sp ep cs ≠ B := by
        intro he; rw [he] at hk; exact hk hkB
      rw [if_neg hk]
      have hBcs : B ∈ preorderList cs := by
        rcases (mem_preorder_iff B _).mp hBX with he | hm
        · exact absurd he.symm hXneB
        · simpa [Node.children] using hm
      obtain ⟨cB, hcBmem, hBcB⟩ := (mem_preorderList_iff B cs).mp hBcs
      have hlist : ∀ ct : List Node, (∀ c ∈ ct, c ∈ cs) →
          ∀ refs1 A2 c2, c2 ∈ ct → B ∈ preorder c2 → A2 ∈ preorder c2 → B ∈ preorder A2 →
          A2 ∈ visitRefsList cfg src tns ct refs1 := by
        intro ct
        induction ct with
        | nil => intro _ refs1 A2 c2 hc2; exact absurd hc2 (List.not_mem_nil c2)
        | cons c0 ct2 ihl =>
          intro hsubcs refs1 A2 c2 hc2 hBc2 hAc2 hBA2
          have hstep : visitRefsList cfg src tns (c0 :: ct2) refs1 =
              visitRefsList cfg src tns ct2 (visitRefs cfg src tns c0 refs1) := rfl
          rw [hstep]
          rcases List.mem_cons.mp hc2 with rfl | hc2t
          · have hc0cs : c2 ∈ cs := hsubcs c2 (List.mem_cons_self c2 ct2)
            have hc0mem : c2 ∈ preorder (Node.mk k d f sb eb sp ep cs) :=
              mem_preorder_of_child c2 _ (show c2 ∈ (Node.mk k d f sb eb sp ep cs).children
                from hc0cs)
            have hspc : SpanOk Node.startByte Node.endByte c2 :=
              spanOk_restrict _ _ (Node.mk k d f sb eb sp ep cs) c2 hsp hc0mem
            have hancc : ∀ A3 ∈ preorder c2, B ∈ preorder A3 → A3 ≠ B →
                ¬ cfg.name_types.contains A3.kind = true :=
              fun A3 hA3 => hanc A3 (preorder_trans A3 c2 _ hA3 hc0mem)
            have hmark : A2 ∈ visitRefs cfg src tns c2 refs1 :=
              ih c2 hc0cs hspc hancc hBc2 refs1 A2 hAc2 hBA2
            exact Finset.mem_of_subset (visitRefsList_mono cfg src tns ct2 _) hmark
          · exact ihl (fun c hc => hsubcs c (List.mem_cons_of_mem c0 hc)) _ A2 c2 hc2t
              hBc2 hAc2 hBA2
      have hcBrefs : cB ∈ visitRefsList cfg src tns cs refs0 :=
        hlist cs (fun c hc => hc) refs0 cB cB hcBmem hBcB (mem_preorder_self cB) hBcB
      have hany : cs.any (fun c => decide (c ∈ visitRefsList cfg src tns cs refs0)) = true :=
        List.any_eq_true.mpr ⟨cB, hcBmem, decide_eq_true hcBrefs⟩
      rw [if_pos hany]
      rcases (mem_preorder_iff A _).mp hA with he | hm
      · rw [he]; exact Finset.mem_insert_self _ _
      · obtain ⟨cA, hcAmem, hAcA⟩ :=
          (mem_preorderList_iff A cs).mp (by simpa [Node.children] using hm)
        have hBcA : B ∈ preorder cA := preorder_trans B A cA hBA hAcA
        have hceq : cA = cB := containing_child_unique Node.startByte Node.endByte
          (Node.mk k d f sb eb sp ep cs) hsp B cA cB
          (show cA ∈ (Node.mk k d f sb eb sp ep cs).children from hcAmem)
          (show cB ∈ (Node.mk k d f sb eb sp ep cs).children from hcBmem)
          hBcA hBcB
        have hArefs : A ∈ visitRefsList cfg src tns cs refs0 :=
          hlist cs (fun c hc => hc) refs0 A cB hcBmem hBcB (hceq ▸ hAcA) hBA
        exact Finset.mem_insert_of_mem hArefs

theorem nodeOfKindForPointList_decomp (kinds : List String) (p : Point) (B : Node) :
    ∀ cs : List Node, nodeOfKindForPointList kinds p cs = some B →
    ∃ pre c post, cs = pre ++ c :: post ∧
      (∀ c' ∈ pre, ¬ ptLtB p c'.endPoint = true) ∧
      ptLtB p c.endPoint = true ∧ nodeOfKindForPoint kinds p c = some B := by
  intro cs
  induction cs with
  | nil => intro h; cases h
  | cons c0 ct ih =>
    intro h
    have hstep : nodeOfKindForPointList kinds p (c0 :: ct) =
        if ptLtB p c0.endPoint then nodeOfKindForPoint kinds p c0
        else nodeOfKindForPointList kinds p ct := rfl
    rw [hstep] at h
    by_cases hc : ptLtB p c0.endPoint = true
    · rw [if_pos hc] at h
      exact ⟨[], c0, ct, rfl, fun c' hc' => absurd hc' (List.not_mem_nil c'), hc, h⟩
    · rw [if_neg hc] at h
      obtain ⟨pre, c, post, hcs, hpre, hcend, hrec⟩ := ih h
      refine ⟨c0 :: pre, c, post, by rw [hcs]; rfl, ?_, hcend, hrec⟩
      intro c' hc'
      rcases List.mem_cons.mp hc' with rfl | hm
      · exact hc
      · exact hpre c' hm

theorem nodeOfKindForPoint_spec (kinds : List String) (p : Point) (B : Node) :
    ∀ X : Node,
    SpanOk (fun n => ptKey n.startPoint) (fun n => ptKey n.endPoint) X →
    ptKey p < ptKey X.endPoint →
    nodeOfKindForPoint kinds p X = some B →
    B ∈ preorder X ∧ kinds.contains B.kind = true ∧
    ptKey p < ptKey B.endPoint ∧
    (∀ A ∈ preorder X, B ∈ preorder A → A ≠ B → ¬ kinds.contains A.kind = true) ∧
    (∀ Y ∈ preorder X, ptKey Y.endPoint ≤ ptKey B.startPoint →
      ptKey Y.endPoint ≤ ptKey p) := by
  intro X
  induction X using nodeInd with
  | _ k d f sb eb sp ep cs ih =>
    intro hsp hpe hfind
    have hv : nodeOfKindForPoint kinds p (Node.mk k d f sb eb sp ep cs) =
        if kinds.contains (Node.mk k d f sb eb sp ep cs).kind
        then some (Node.mk k d f sb eb sp ep cs)
        else nodeOfKindForPointList kinds p cs := rfl
    rw [hv] at hfind
    by_cases hk : kinds.contains (Node.mk k d f sb eb sp ep cs).kind = true
    · rw [if_pos hk] at hfind
      injection hfind with hB
      subst hB
      refine ⟨mem_preorder_self _, hk, hpe, ?_, ?_⟩
      · intro A hA hBA hne _
        exact hne (preorder_antisymm A _ hA hBA)
      · intro Y hY hle
        have hb := span_bounds (fun n => ptKey n.startPoint) (fun n => ptKey n.endPoint)
          _ hsp Y hY
        have hny := hsp.1 Y hY
        exact absurd hny (not_lt.mpr (le_trans hle hb.1)).elim
    · rw [if_neg hk] at hfind
      obtain ⟨pre, c, post, hcs, hpre, hcend, hrec⟩ :=
        nodeOfKindForPointList_decomp kinds p B cs hfind
      have hcmem : c ∈ cs := by rw [hcs]; exact List.mem_append_right pre (List.mem_cons_self c post)
      have hcX : c ∈ preorder (Node.mk k d f sb eb sp ep cs) :=
        mem_preorder_of_child c _ (show c ∈ (Node.mk k d f sb eb sp ep cs).children from hcmem)
      have hspc := spanOk_restrict (fun n => ptKey n.startPoint) (fun n => ptKey n.endPoint)
        _ c hsp hcX
      obtain ⟨hB1, hB2, hB3, hB4, hB5⟩ :=
        ih c hcmem hspc ((ptLtB_iff _ _).mp hcend) hrec
      have hBX : B ∈ preorder (Node.mk k d f sb eb sp ep cs) :=
        preorder_trans B c _ hB1 hcX
      -- children pairwise span disjointness (point measure)
      have hchain := hsp.2.1 (Node.mk k d f sb eb sp ep cs) (mem_preorder_self _)
      have hnemp : ∀ x ∈ (Node.mk k d f sb eb sp ep cs).children,
          ptKey x.startPoint < ptKey x.endPoint :=
        fun x hx => hsp.1 x (mem_preorder_of_child x _ hx)
      have hpwch := chain'_pairwise_span (fun n : Node => ptKey n.startPoint)
        (fun n : Node => ptKey n.endPoint) _ hchain hnemp
      refine ⟨hBX, hB2, hB3, ?_, ?_⟩
      · intro A hA hBA hne
        rcases (mem_preorder_iff A _).mp hA with he | hm
        · rw [he]; exact hk
        · obtain ⟨cA, hcAmem, hAcA⟩ :=
            (mem_preorderList_iff A cs).mp (by simpa [Node.children] using hm)
          have hBcA : B ∈ preorder cA := preorder_trans B A cA hBA hAcA
          have hceq : cA = c := containing_child_unique (fun n => ptKey n.startPoint)
            (fun n => ptKey n.endPoint) (Node.mk k d f sb eb sp ep cs) hsp B cA c
            (show cA ∈ (Node.mk k d f sb eb sp ep cs).children from hcAmem)
            (show c ∈ (Node.mk k d f sb eb sp ep cs).children from hcmem)
            hBcA hB1
          exact hB4 A (hceq ▸ hAcA) hBA hne
      · intro Y hY hle
        rcases (mem_preorder_iff Y _).mp hY with he | hm
        · -- Y = X: its end bounds B's end from above; contradiction with hle
          exfalso
          have hb := span_bounds (fun n => ptKey n.startPoint) (fun n => ptKey n.endPoint)
            _ hsp B hBX
          have hnB := hsp.1 B hBX
          rw [he] at hle
          exact absurd hnB (not_lt.mpr (le_trans hb.2 hle))
        · obtain ⟨cY, hcYmem, hYcY⟩ :=
            (mem_preorderList_iff Y cs).mp (by simpa [Node.children] using hm)
          have hcYX : cY ∈ preorder (Node.mk k d f sb eb sp ep cs) :=
            mem_preorder_of_child cY _
              (show cY ∈ (Node.mk k d f sb eb sp ep cs).children from hcYmem)
          have hbY := span_bounds (fun n => ptKey n.startPoint) (fun n => ptKey n.endPoint)
            cY (spanOk_restrict _ _ _ cY hsp hcYX) Y hYcY
          -- locate cY in pre / c / post
          rw [hcs] at hcYmem
          rcases List.mem_append.mp hcYmem with hin_pre | hin_cpost
          · -- skipped child: its whole subtree ends before p
            have hskip : ptKey cY.endPoint ≤ ptKey p := by
              have := hpre cY hin_pre
              rw [ptLtB_iff] at this
              exact not_lt.mp this
            exact le_trans hbY.2 hskip
          · rcases List.mem_cons.mp hin_cpost with rfl | hin_post
            · exact hB5 Y hYcY hle
            · -- child after the descended one: starts after B ends; contradiction
              exfalso
              have hRc : ptKey c.endPoint ≤ ptKey cY.startPoint := by
                have hpw2 : List.Pairwise
                    (fun a b => ptKey a.endPoint ≤ ptKey b.startPoint) (c :: post) := by
                  have hx := hpwch
                  rw [show (Node.mk k d f sb eb sp ep cs).children = cs from rfl, hcs] at hx
                  exact (List.pairwise_append.mp hx).2.1
                exact (List.pairwise_cons.mp hpw2).1 cY hin_post
              have hbB := span_bounds (fun n => ptKey n.startPoint)
                (fun n => ptKey n.endPoint) c hspc B hB1
              have hnB := hsp.1 B hBX
              have hnY := hsp.1 Y (preorder_trans Y cY _ hYcY hcYX)
              -- e Y ≤ s B < e B ≤ e c ≤ s cY ≤ s Y < e Y
              have : ptKey Y.endPoint < ptKey Y.endPoint :=
                lt_of_le_of_lt hle (lt_of_lt_of_le hnB (le_trans hbB.2
                  (le_trans hRc (le_trans hbY.1 (le_of_lt hnY)))))
              exact lt_irrefl _ this

theorem preorder_eq_cons (n : Node) : preorder n = n :: preorderList n.children := by
  cases n; rfl

theorem pairwise_triple {α : Type} {R : α → α → Prop} (L L1 L2 L3 : List α)
    (hpw : List.Pairwise R L) (hdec : L = L1 ++ L2 ++ L3) :
    (∀ a ∈ L1, ∀ b ∈ L2, R a b) ∧ (∀ a ∈ L1, ∀ b ∈ L3, R a b) ∧
    (∀ a ∈ L2, ∀ b ∈ L3, R a b) := by
  subst hdec
  rw [List.append_assoc, List.pairwise_append] at hpw
  obtain ⟨_, h23, hcross⟩ := hpw
  rw [List.pairwise_append] at h23
  exact ⟨fun a ha b hb => hcross a ha b (List.mem_append_left _ hb),
         fun a ha b hb => hcross a ha b (List.mem_append_right _ hb),
         h23.2.2⟩

theorem flatten_fold_elem (cfg : SlicerConfig) (refs : Finset Node) :
    ∀ (l acc : List Node) (b : Node),
      b ∈ l.foldl (fun acc stmt =>
        if statementKind cfg stmt ∧ stmt ∉ refs ∧ ¬ ∃ d ∈ acc, stmt ∈ preorderList d.children
        then acc ++ [stmt] else acc) acc →
      b ∈ acc ∨ (statementKind cfg b = true ∧ b ∉ refs ∧ b ∈ l) := by
  intro l
  induction l with
  | nil => intro acc b hb; exact Or.inl hb
  | cons x t ih =>
    intro acc b hb
    rw [List.foldl_cons] at hb
    by_cases hc : statementKind cfg x ∧ x ∉ refs ∧ ¬ ∃ d ∈ acc, x ∈ preorderList d.children
    · rw [if_pos hc] at hb
      rcases ih (acc ++ [x]) b hb with hacc | hrest
      · rcases List.mem_append.mp hacc with h1 | h2
        · exact Or.inl h1
        · rcases List.mem_singleton.mp h2 with rfl
          exact Or.inr ⟨hc.1, hc.2.1, List.mem_cons_self b t⟩
      · exact Or.inr ⟨hrest.1, hrest.2.1, List.mem_cons_of_mem x hrest.2.2⟩
    · rw [if_neg hc] at hb
      rcases ih acc b hb with hacc | hrest
      · exact Or.inl hacc
      · exact Or.inr ⟨hrest.1, hrest.2.1, List.mem_cons_of_mem x hrest.2.2⟩

theorem coalesceRun_end_le (root : Node) (p : Point) (B : Node)
    (hsp : SpanOk (fun n : Node => ptKey n.startPoint)
      (fun n : Node => ptKey n.endPoint) root)
    (hpB : ptKey p < ptKey B.endPoint)
    (hBroot : B ∈ preorder root)
    (hleft : ∀ Y ∈ preorder root, ptKey Y.endPoint ≤ ptKey B.startPoint →
      ptKey Y.endPoint ≤ ptKey p) :
    ∀ (l : List Node) (e0 : Node),
    e0 ∈ preorder root → B ∉ preorder e0 → e0 ∉ preorder B →
    (∀ x ∈ l, x ∈ preorder root ∧ B ∉ preorder x ∧ x ∉ preorder B ∧
      (ptKey x.endPoint ≤ ptKey p ∨ ptKey p < ptKey x.startPoint)) →
    ptKey e0.endPoint ≤ ptKey p →
    ptKey (coalesceRun root e0 l).1.endPoint ≤ ptKey p := by
  intro l
  induction l with
  | nil => intro e0 _ _ _ _ he; exact he
  | cons nxt rest ihl =>
    intro e0 he0root hBnot0 h0notB hall he0le
    have hnxt := hall nxt (List.mem_cons_self nxt rest)
    have hstep : coalesceRun root e0 (nxt :: rest) =
        match (afterSubtree e0 root).head? with
        | some b => if b = nxt then coalesceRun root nxt rest else (e0, nxt :: rest)
        | none => (e0, nxt :: rest) := rfl
    rw [hstep]
    cases hAfter : afterSubtree e0 root with
    | nil => exact he0le
    | cons a0 tail =>
      rw [List.head?_cons]
      dsimp only
      by_cases hbn : a0 = nxt
      · rw [if_pos hbn]
        subst hbn
        -- establish the absorbed node still ends before the point
        have hnle : ptKey a0.endPoint ≤ ptKey p := by
          rcases hnxt.2.2.2 with hle | hgt
          · exact hle
          · exfalso
            have hpw1 := preorder_pairwise (fun n : Node => ptKey n.startPoint)
              (fun n : Node => ptKey n.endPoint) root hsp
            obtain ⟨preL, hdec⟩ := afterSubtree_decomp e0 root he0root
            have htrip := pairwise_triple _ preL (preorder e0) (afterSubtree e0 root)
              hpw1 hdec
            -- B is positioned after the subtree of e0
            have hBafter : B ∈ afterSubtree e0 root := by
              have hBr := hBroot
              rw [hdec] at hBr
              rcases List.mem_append.mp hBr with h12 | h3
              · rcases List.mem_append.mp h12 with h1 | h2
                · -- B before e0 in preorder: R B e0 gives a contradiction
                  exfalso
                  rcases htrip.1 B h1 e0 (mem_preorder_self e0) with hmem | hle2
                  · exact h0notB ((mem_preorder_iff e0 B).mpr (Or.inr hmem))
                  · have := hsp.1 e0 he0root
                    exact absurd hpB (not_lt.mpr (le_trans (le_trans hle2 (le_of_lt this))
                      he0le))
                · exact absurd h2 hBnot0
              · exact h3
            rw [hAfter] at hBafter
            rcases List.mem_cons.mp hBafter with rfl | hBtail
            · exact hnxt.2.1 (mem_preorder_self B)
            · -- decompose the suffix after a0 using uniqueness of positions
              obtain ⟨preL2, hdec2⟩ := afterSubtree_decomp a0 root hnxt.1
              have hnd := preorder_nodup (fun n : Node => ptKey n.startPoint)
                (fun n : Node => ptKey n.endPoint) root hsp
              have hdecA : preorder root = (preL ++ preorder e0) ++ a0 :: tail := by
                rw [hdec, hAfter, List.append_assoc]
              have hdecB : preorder root =
                  preL2 ++ a0 :: (preorderList a0.children ++ afterSubtree a0 root) := by
                rw [hdec2, preorder_eq_cons a0]
                simp [List.append_assoc]
              have hndA : ((preL ++ preorder e0) ++ a0 :: tail).Nodup := hdecA ▸ hnd
              obtain ⟨_, htail⟩ := nodup_mid_eq (preL ++ preorder e0) tail preL2
                (preorderList a0.children ++ afterSubtree a0 root) a0
                (hdecA.symm.trans hdecB) hndA
              rw [htail] at hBtail
              rcases List.mem_append.mp hBtail with hch | haft
              · exact hnxt.2.1 ((mem_preorder_iff B a0).mpr (Or.inr hch))
              · -- B after a0's subtree: a0 ends before B starts, so before p
                have htrip2 := pairwise_triple _ preL2 (preorder a0)
                  (afterSubtree a0 root) hpw1 hdec2
                rcases htrip2.2.2 a0 (mem_preorder_self a0) B haft with hmem | hle2
                · exact hnxt.2.1 ((mem_preorder_iff B a0).mpr (Or.inr hmem))
                · have hnn := hsp.1 a0 hnxt.1
                  have := hleft a0 hnxt.1 hle2
                  exact absurd (lt_trans hgt hnn) (not_lt.mpr this)
        exact ihl a0 hnxt.1 hnxt.2.1 hnxt.2.2.1
          (fun x hx => hall x (List.mem_cons_of_mem a0 hx)) hnle
      · rw [if_neg hbn]
        exact he0le

theorem coalesce_not_contains (root : Node) (p : Point) (B : Node)
    (hsp : SpanOk (fun n : Node => ptKey n.startPoint)
      (fun n : Node => ptKey n.endPoint) root)
    (hpB : ptKey p < ptKey B.endPoint)
    (hBroot : B ∈ preorder root)
    (hleft : ∀ Y ∈ preorder root, ptKey Y.endPoint ≤ ptKey B.startPoint →
      ptKey Y.endPoint ≤ ptKey p) :
    ∀ (fuel : Nat) (ns : List Node),
    (∀ x ∈ ns, x ∈ preorder root ∧ B ∉ preorder x ∧ x ∉ preorder B ∧
      (ptKey x.endPoint ≤ ptKey p ∨ ptKey p < ptKey x.startPoint)) →
    ∀ r ∈ coalesceRangesFuel root fuel ns,
      ¬ (ptKey r.start_point ≤ ptKey p ∧ ptKey p < ptKey r.end_point) := by
  intro fuel
  induction fuel with
  | zero =>
    intro ns _ r hr
    have h0 : coalesceRangesFuel root 0 ns = [] := by cases ns <;> rfl
    rw [h0] at hr
    exact absurd hr (List.not_mem_nil r)
  | succ fuel ih =>
    intro ns hall r hr
    cases ns with
    | nil =>
      have h0 : coalesceRangesFuel root (fuel + 1) [] = [] := rfl
      rw [h0] at hr
      exact absurd hr (List.not_mem_nil r)
    | cons n rest =>
      have hunf : coalesceRangesFuel root (fuel + 1) (n :: rest) =
          ⟨n.startByte, n.startPoint, (coalesceRun root n rest).1.endByte,
           (coalesceRun root n rest).1.endPoint⟩ ::
          coalesceRangesFuel root fuel (coalesceRun root n rest).2 := rfl
      rw [hunf] at hr
      rcases List.mem_cons.mp hr with rfl | hm
      · rintro ⟨hple, hplt⟩
        have hn := hall n (List.mem_cons_self n rest)
        rcases hn.2.2.2 with hle | hgt
        · have hend := coalesceRun_end_le root p B hsp hpB hBroot hleft rest n
            hn.1 hn.2.1 hn.2.2.1
            (fun x hx => hall x (List.mem_cons_of_mem n hx)) hle
          exact absurd hplt (not_lt.mpr hend)
        · exact absurd hple (not_le.mpr hgt)
      · obtain ⟨consumed, hcons, _⟩ := coalesceRun_spec root rest n
        refine ih (coalesceRun root n rest).2 ?_ r hm
        intro x hx
        refine hall x (List.mem_cons_of_mem n ?_)
        rw [hcons]
        exact List.mem_append_right consumed hx

theorem scopeClimb_target_mem (cfg : SlicerConfig) (root t tf : Node)
    (h : scopeClimb cfg root t = some tf) : t ∈ preorder tf := by
  unfold scopeClimb at h
  cases hp : pathTo t root with
  | none => rw [hp] at h; cases h
  | some path =>
    rw [hp, Option.some_bind] at h
    have hmem : tf ∈ path.reverse := List.mem_of_find?_eq_some h
    exact pathTo_contains t root path hp tf (List.mem_reverse.mp hmem)

/-- C3: for every source, target point within the parse tree, and
direction on which `slice` succeeds on a well-formed tree in which no
statement-kind node sits inside a name node, the target point is not
contained in any returned range. -/
theorem c3_target_outside_ranges (cfg : SlicerConfig) (src : List Char) (root : Node)
    (p : Point) (dir : SliceDirection) (rs : List TSRange)
    (hwf : wfNode root = true)
    (hpe : ptLtB p root.endPoint = true)
    (hns : noStmtInsideName cfg root = true)
    (hok : Slicer.slice cfg src root p dir = some (.ok rs)) :
    ∀ r ∈ rs, ¬ (ptLeB r.start_point p = true ∧ ptLtB p r.end_point = true) := by
  unfold Slicer.slice at hok
  cases hna : nameAtPoint cfg src root p with
  | none =>
    rw [hna] at hok
    injection hok with hok2
    exact Except.noConfusion hok2
  | some tn =>
    rw [hna] at hok
    dsimp only at hok
    cases hsc : scopeClimb cfg root tn.node with
    | none => rw [hsc] at hok; exact Option.noConfusion hok
    | some tf =>
      rw [hsc] at hok
      dsimp only at hok
      injection hok with hok2
      injection hok2 with hok3
      -- extract the descent node
      unfold nameAtPoint at hna
      rw [Option.map_eq_some'] at hna
      obtain ⟨B, hfind, htn⟩ := hna
      have htnnode : tn.node = B := by rw [← htn]
      rw [htnnode] at hsc
      have hspP : SpanOk (fun n : Node => ptKey n.startPoint)
          (fun n : Node => ptKey n.endPoint) root := wf_spanOk_point root hwf
      have hspB : SpanOk Node.startByte Node.endByte root := wf_spanOk_byte root hwf
      obtain ⟨hBroot, hBkind, hpB, hanc, hleft⟩ :=
        nodeOfKindForPoint_spec cfg.name_types p B root hspP ((ptLtB_iff _ _).mp hpe) hfind
      have htfroot : tf ∈ preorder root := scopeClimb_mem cfg root B tf hsc
      have hBtf : B ∈ preorder tf := scopeClimb_target_mem cfg root B tf hsc
      -- target components are in the propagated set and affect themselves
      have hcomp : tn.components = nameComponents cfg src B := by rw [← htn]
      have hinit : tn.components ∈ propagate_targets cfg src tf {tn.components} dir :=
        propagateFuel_le cfg src tf dir _ {tn.components} (Finset.mem_singleton_self _)
      have haff : ∃ t ∈ propagate_targets cfg src tf {tn.components} dir,
          affects t (nameComponents cfg src B) = true :=
        ⟨tn.components, hinit, by rw [hcomp]; exact affects_refl _⟩
      -- every subtree node containing the target name node is marked
      have hanctf : ∀ A ∈ preorder tf, B ∈ preorder A → A ≠ B →
          ¬ cfg.name_types.contains A.kind = true :=
        fun A hA => hanc A (preorder_trans A tf root hA htfroot)
      have hmarks := visitRefs_marks cfg src
        (propagate_targets cfg src tf {tn.components} dir) B hBkind haff tf
        (spanOk_restrict _ _ root tf hspB htfroot) hanctf hBtf ∅
      -- the emitted statement list and its properties
      obtain ⟨ns, hnseq, _⟩ := flatten_fold_suffix cfg
        (visitRefs cfg src (propagate_targets cfg src tf {tn.components} dir) tf ∅)
        (preorder tf) []
      rw [List.nil_append] at hnseq
      have hflat : flatten_unreferenced cfg src tf
          (propagate_targets cfg src tf {tn.components} dir) = ns := hnseq
      have hBrefs : B ∈ visitRefs cfg src
          (propagate_targets cfg src tf {tn.components} dir) tf ∅ :=
        hmarks B hBtf (mem_preorder_self B)
      have hpwP := preorder_pairwise (fun n : Node => ptKey n.startPoint)
        (fun n : Node => ptKey n.endPoint) root hspP
      -- each emitted node: in the tree, incomparable with the name node,
      -- and spatially on one side of the target point
      have hquad : ∀ x ∈ ns, x ∈ preorder root ∧ B ∉ preorder x ∧ x ∉ preorder B ∧
          (ptKey x.endPoint ≤ ptKey p ∨ ptKey p < ptKey x.startPoint) := by
        intro x hx
        have hxel := flatten_fold_elem cfg
          (visitRefs cfg src (propagate_targets cfg src tf {tn.components} dir) tf ∅)
          (preorder tf) [] x (by rw [hnseq]; exact hx)
        rcases hxel with hnil | ⟨hstmt, hxrefs, hxtf⟩
        · exact absurd hnil (List.not_mem_nil x)
        have hxroot : x ∈ preorder root := preorder_trans x tf root hxtf htfroot
        have hBnx : B ∉ preorder x := by
          intro hBx
          exact hxrefs (hmarks x hxtf hBx)
        have hxnB : x ∉ preorder B := by
          intro hxB
          rcases (mem_preorder_iff x B).mp hxB with he | hm
          · rw [he] at hxrefs
            exact hxrefs hBrefs
          · -- a statement inside the name node: excluded by hypothesis
            have hmB := List.all_eq_true.mp hns B hBroot
            rw [hBkind] at hmB
            simp only [Bool.not_true, Bool.false_or] at hmB
            have := List.all_eq_true.mp hmB x hm
            rw [hstmt] at this
            simp at this
        have hxneB : x ≠ B := by
          intro he
          rw [he] at hxrefs
          exact hxrefs hBrefs
        refine ⟨hxroot, hBnx, hxnB, ?_⟩
        rcases pairwise_of_mem_ne hpwP hxroot hBroot hxneB with h1 | h2
        · rcases h1 with hmem | hle
          · exact absurd ((mem_preorder_iff B x).mpr (Or.inr hmem)) hBnx
          · exact Or.inl (hleft x hxroot hle)
        · rcases h2 with hmem | hle
          · exact absurd ((mem_preorder_iff x B).mpr (Or.inr hmem)) hxnB
          · exact Or.inr (lt_of_lt_of_le hpB hle)
      -- conclude via the coalescing bound
      intro r hr
      rw [← hok3, hflat] at hr
      have hco : coalesce_ranges root ns = coalesceRangesFuel root ns.length ns := rfl
      rw [hco] at hr
      intro hcontain
      refine coalesce_not_contains root p B hspP hpB hBroot hleft ns.length ns hquad r hr ?_
      exact ⟨(ptLeB_iff _ _).mp hcontain.1, (ptLtB_iff _ _).mp hcontain.2⟩

theorem c3_witness :
    wfNode tree1 = true ∧ ptLtB p1 tree1.endPoint = true ∧
    noStmtInsideName cConfig tree1 = true ∧
    Slicer.slice cConfig src1 tree1 p1 .Backward =
      some (.ok [⟨27, ⟨3, 0⟩, 35, ⟨3, 8⟩⟩]) ∧
    ∀ r ∈ [(⟨27, ⟨3, 0⟩, 35, ⟨3, 8⟩⟩ : TSRange)],
      ¬ (ptLeB r.start_point p1 = true ∧ ptLtB p1 r.end_point = true) :=
  ⟨by decide, by decide, by decide, by decide,
   c3_target_outside_ranges cConfig src1 tree1 p1 .Backward _
     (by decide) (by decide) (by decide) (by decide)⟩
